import Mathlib

/-!
# yeah-build: the build engine of `main.go`

A shallow embedding of `src/main.go` and theorems about it.

Conventions of the embedding.

* A Go `string` is its sequence of bytes (`GoString`).  A Go string literal is
  written `lit "..."`, the UTF-8 encoding of the text between the quotes.
* Code with effects (`a.log`, `exec.Cmd`, `time.Now`, the mutex `a.mu`, the
  fields `a.results` and `a.textView`) is written in the monad `Prog`: a
  program is a tree of primitive operations.  `Prog.exec` runs such a program
  alone, to completion, against a `Host` that answers for the outside world
  (processes, clock, file system).  `Par.step` runs the goroutines of
  `buildParallel` one primitive operation at a time, in any order.
* A runtime panic and `os.Exit` end a run: `Except.error` of a `Halt`.
* `Prog.enter` is instrumentation: it records in `App.history` that
  `buildProject` was entered.  Every launched process is recorded there too.
-/

namespace YeahBuild

/-! ## Go strings -/

/-- A Go string: a read-only sequence of bytes. -/
abbrev GoString := List UInt8

/-- UTF-8 encoding of one code point. -/
def encodeRune (c : Char) : GoString :=
  let n := c.toNat
  if n < 0x80 then [UInt8.ofNat n]
  else if n < 0x800 then [UInt8.ofNat (0xC0 + n / 64), UInt8.ofNat (0x80 + n % 64)]
  else if n < 0x10000 then
    [UInt8.ofNat (0xE0 + n / 4096), UInt8.ofNat (0x80 + n / 64 % 64), UInt8.ofNat (0x80 + n % 64)]
  else
    [UInt8.ofNat (0xF0 + n / 262144), UInt8.ofNat (0x80 + n / 4096 % 64),
     UInt8.ofNat (0x80 + n / 64 % 64), UInt8.ofNat (0x80 + n % 64)]

/-- A Go string literal (Go source text is UTF-8). -/
def lit (s : String) : GoString := s.data.flatMap encodeRune

/-- The byte `'\n'`. -/
def newline : UInt8 := 10

/-- Decimal rendering of a non-negative `int`, the verb `%d`. -/
def itoa (n : Nat) : GoString := lit (Nat.repr n)

/-- Width in bytes of the white-space rune (`unicode.IsSpace`) encoded at the head
of `s`, or `0` when `s` does not start with one.  The white-space runes are
U+0009..U+000D, U+0020, U+0085, U+00A0, U+1680, U+2000..U+200A, U+2028, U+2029,
U+202F, U+205F and U+3000. -/
def spaceWidth : GoString → Nat
  | [] => 0
  | b :: rest =>
    if (9 ≤ b ∧ b ≤ 13) ∨ b = 0x20 then 1
    else match b, rest with
      | 0xC2, c :: _ => if c = 0x85 ∨ c = 0xA0 then 2 else 0
      | 0xE1, c :: d :: _ => if c = 0x9A ∧ d = 0x80 then 3 else 0
      | 0xE2, c :: d :: _ =>
        if c = 0x80 ∧ ((0x80 ≤ d ∧ d ≤ 0x8A) ∨ d = 0xA8 ∨ d = 0xA9 ∨ d = 0xAF) then 3
        else if c = 0x81 ∧ d = 0x9F then 3 else 0
      | 0xE3, c :: d :: _ => if c = 0x80 ∧ d = 0x80 then 3 else 0
      | _, _ => 0

/-- The scan of `strings.Fields`: `skip` bytes of a white-space rune are still to
be passed over, `cur` holds the bytes of the field being read, last byte first.
A byte that does not start a white-space rune belongs to a field: a lead byte of
UTF-8 never continues another rune, so a white-space encoding is found only where
a rune starts. -/
def fieldsAux : Nat → GoString → GoString → List GoString
  | _, [], cur => if cur = [] then [] else [cur.reverse]
  | skip + 1, _ :: rest, cur => fieldsAux skip rest cur
  | 0, b :: rest, cur =>
    match spaceWidth (b :: rest) with
    | 0 => fieldsAux 0 rest (b :: cur)
    | w + 1 => (if cur = [] then [] else [cur.reverse]) ++ fieldsAux w rest []

/-- Go `strings.Fields`: the maximal runs of non-white-space, in order. -/
def Fields (s : GoString) : List GoString := fieldsAux 0 s []

/-- Go `strings.HasPrefix`. -/
def HasPrefix (s p : GoString) : Bool := p.isPrefixOf s

/-- Go `strings.Split(s, sep)` for a separator of one byte (the source splits
on "\n" only): the pieces between the separators, one more than there are
separators. -/
def Split (sep : UInt8) : GoString → List GoString
  | [] => [[]]
  | b :: s =>
    if b = sep then [] :: Split sep s
    else match Split sep s with
      | [] => [[b]]
      | l :: ls => (b :: l) :: ls

/-- Go `strings.Join`. -/
def Join (elems : List GoString) (sep : GoString) : GoString := sep.intercalate elems

/-- Leading white space removed (`skip` as in `fieldsAux`). -/
def trimLeftAux : Nat → GoString → GoString
  | _, [] => []
  | skip + 1, _ :: rest => trimLeftAux skip rest
  | 0, b :: rest =>
    match spaceWidth (b :: rest) with
    | 0 => b :: rest
    | w + 1 => trimLeftAux w rest

/-- Width of the white-space rune that ends the string whose bytes, last first,
are `r`; `0` when there is none. -/
def spaceWidthRev : GoString → Nat
  | [] => 0
  | b :: rest =>
    if (9 ≤ b ∧ b ≤ 13) ∨ b = 0x20 then 1
    else match rest with
      | 0xC2 :: _ => if b = 0x85 ∨ b = 0xA0 then 2 else 0
      | c :: a :: _ => if spaceWidth [a, c, b] = 3 then 3 else 0
      | _ => 0

/-- Trailing white space removed from a string given last byte first. -/
def trimRevAux : Nat → GoString → GoString
  | _, [] => []
  | skip + 1, _ :: rest => trimRevAux skip rest
  | 0, b :: rest =>
    match spaceWidthRev (b :: rest) with
    | 0 => b :: rest
    | w + 1 => trimRevAux w rest

/-- Go `strings.TrimSpace`. -/
def TrimSpace (s : GoString) : GoString :=
  (trimRevAux 0 (trimLeftAux 0 s).reverse).reverse

/-! ## Data model (`main.go` lines 18-72) -/

/-- The struct `GlobalConf`. -/
structure GlobalConf where
  Parallel : Bool := false
  StopOnError : Bool := false
  LogFile : GoString := []
  Timeout : Int := 0
  deriving DecidableEq, Repr

/-- The struct `GitConf`. -/
structure GitConf where
  Pull : Bool := false
  Branch : GoString := []
  Reset : Bool := false
  deriving DecidableEq, Repr

/-- The struct `BuildConf`. -/
structure BuildConf where
  Commands : List GoString := []
  Clean : Bool := false
  Test : Bool := false
  deriving DecidableEq, Repr

/-- The struct `Project`.  `Env` is a Go map; it is held as the list of its
entries in the order a `range` over it visits them. -/
structure Project where
  Name : GoString := []
  Path : GoString := []
  /-- The field `Type` (a reserved word here). -/
  Typ : GoString := []
  Git : GitConf := {}
  Build : BuildConf := {}
  Env : List (GoString × GoString) := []
  Disabled : Bool := false
  deriving DecidableEq, Repr

/-- The struct `Config`. -/
structure Config where
  Interactive : Bool := false
  Projects : List Project := []
  Global : GlobalConf := {}
  deriving DecidableEq, Repr

/-- The struct `BuildResult`; `Duration` in nanoseconds. -/
structure BuildResult where
  Project : GoString := []
  Success : Bool := false
  Output : GoString := []
  Error : GoString := []
  Duration : Int := 0
  deriving DecidableEq, Repr

/-- An `exec.Cmd` as the source sets it up: `exec.Command(name, args...)` gives
`Path` and `Args` (the name first), then `Dir` and `Env` are assigned. -/
structure Cmd where
  Path : GoString := []
  Args : List GoString := []
  Dir : GoString := []
  Env : List GoString := []
  deriving DecidableEq, Repr

/-- Go `exec.Command`. -/
def Command (name : GoString) (args : List GoString) : Cmd :=
  { Path := name, Args := name :: args }

/-- One item of the `tview.List`. -/
structure Item where
  MainText : GoString
  SecondaryText : GoString
  Shortcut : Nat
  deriving DecidableEq, Repr

/-- The `tview.List` of the application: its items and the current item. -/
structure ListView where
  items : List Item := []
  currentItem : Int := 0
  deriving DecidableEq, Repr

/-- What ends a run before it returns. -/
inductive Halt where
  /-- Runtime panic: index out of range. -/
  | indexOutOfRange (index len : Nat)
  /-- Runtime panic: slice bounds out of range. -/
  | sliceOutOfRange (low len : Nat)
  /-- Go `os.Exit`. -/
  | exit (code : Nat)
  /-- Locking `a.mu` while it is held, with nobody left to release it. -/
  | deadlock
  /-- Fatal error: unlock of an unlocked mutex. -/
  | unlockOfUnlocked
  /-- Runtime panic: negative `sync.WaitGroup` counter. -/
  | negativeCounter
  deriving DecidableEq, Repr

/-- Entries of the instrumentation history. -/
inductive Event where
  /-- The function `buildProject` was entered for the project of this name. -/
  | build (name : GoString)
  /-- A process was launched (`cmd.Run` or `cmd.CombinedOutput`). -/
  | launch (cmd : Cmd)
  deriving DecidableEq, Repr

/-- Constants of the platform, and the two library functions whose result the
model leaves open. -/
structure Platform where
  /-- Go `runtime.GOOS`. -/
  GOOS : GoString
  /-- Go `runtime.GOARCH`. -/
  GOARCH : GoString
  /-- Go `filepath.Join` of two elements. -/
  joinPath : GoString → GoString → GoString
  /-- The verb `%v` of a `time.Duration`. -/
  durationString : Int → GoString

/-- The mutable state of the struct `App`, with standard output, the outside
world `W` and the instrumentation history.  `textView` holds the chunks written
to the text view, oldest first. -/
structure App (W : Type) where
  config : Config := {}
  list : ListView := {}
  textView : List GoString := []
  results : List BuildResult := []
  mu : Bool := false
  stdout : List GoString := []
  history : List Event := []
  world : W

/-- The outside world's answers. -/
structure Host (W : Type) where
  /-- Go `time.Now`, in nanoseconds. -/
  clock : W → Int × W
  /-- Go `filepath.Abs`, its error dropped. -/
  abs : GoString → W → GoString
  /-- Whether `os.Stat` fails with an error for which `os.IsNotExist` holds. -/
  statNotExist : GoString → W → Bool
  /-- Go `os.Environ`. -/
  environ : W → List GoString
  /-- Go `cmd.Run`: the error text, if any. -/
  run : Cmd → W → Option GoString × W
  /-- Go `cmd.CombinedOutput`: the captured bytes and the error text, if any. -/
  combinedOutput : Cmd → W → (GoString × Option GoString) × W

/-! ## Programs -/

/-- A program: a tree of primitive operations that ends in a value or halts. -/
inductive Prog (α : Type) : Type where
  | ret (a : α)
  | halt (h : Halt)
  /-- Instrumentation: `buildProject` entered. -/
  | enter (name : GoString) (k : Prog α)
  /-- Go `a.mu.Lock()`. -/
  | lock (k : Prog α)
  /-- Go `a.mu.Unlock()`. -/
  | unlock (k : Prog α)
  /-- Writing to `a.textView` (and `ScrollToEnd`). -/
  | write (s : GoString) (k : Prog α)
  /-- Go `a.textView.Clear()`. -/
  | clear (k : Prog α)
  /-- Reading `a.results`. -/
  | getResults (k : List BuildResult → Prog α)
  /-- Assigning `a.results`. -/
  | setResults (rs : List BuildResult) (k : Prog α)
  /-- Writing to standard output. -/
  | print (s : GoString) (k : Prog α)
  | now (k : Int → Prog α)
  | abs (path : GoString) (k : GoString → Prog α)
  | stat (path : GoString) (k : Bool → Prog α)
  | environ (k : List GoString → Prog α)
  | cmdRun (cmd : Cmd) (k : Option GoString → Prog α)
  | combinedOutput (cmd : Cmd) (k : GoString × Option GoString → Prog α)

/-- Sequencing of programs. -/
def Prog.bind {α β : Type} : Prog α → (α → Prog β) → Prog β
  | .ret a, f => f a
  | .halt h, _ => .halt h
  | .enter n k, f => .enter n (k.bind f)
  | .lock k, f => .lock (k.bind f)
  | .unlock k, f => .unlock (k.bind f)
  | .write s k, f => .write s (k.bind f)
  | .clear k, f => .clear (k.bind f)
  | .getResults k, f => .getResults (fun rs => (k rs).bind f)
  | .setResults rs k, f => .setResults rs (k.bind f)
  | .print s k, f => .print s (k.bind f)
  | .now k, f => .now (fun t => (k t).bind f)
  | .abs p k, f => .abs p (fun q => (k q).bind f)
  | .stat p k, f => .stat p (fun b => (k b).bind f)
  | .environ k, f => .environ (fun e => (k e).bind f)
  | .cmdRun c k, f => .cmdRun c (fun e => (k e).bind f)
  | .combinedOutput c k, f => .combinedOutput c (fun r => (k r).bind f)

instance : Monad Prog where
  pure := Prog.ret
  bind := Prog.bind

/-- Runs a program alone, to its end. -/
def Prog.exec {W α : Type} (host : Host W) : Prog α → App W → Except Halt (α × App W)
  | .ret a, s => .ok (a, s)
  | .halt h, _ => .error h
  | .enter n k, s => k.exec host { s with history := s.history ++ [Event.build n] }
  | .lock k, s => if s.mu then .error Halt.deadlock else k.exec host { s with mu := true }
  | .unlock k, s =>
    if s.mu then k.exec host { s with mu := false } else .error Halt.unlockOfUnlocked
  | .write t k, s => k.exec host { s with textView := s.textView ++ [t] }
  | .clear k, s => k.exec host { s with textView := [] }
  | .getResults k, s => (k s.results).exec host s
  | .setResults rs k, s => k.exec host { s with results := rs }
  | .print t k, s => k.exec host { s with stdout := s.stdout ++ [t] }
  | .now k, s => (k (host.clock s.world).1).exec host { s with world := (host.clock s.world).2 }
  | .abs p k, s => (k (host.abs p s.world)).exec host s
  | .stat p k, s => (k (host.statNotExist p s.world)).exec host s
  | .environ k, s => (k (host.environ s.world)).exec host s
  | .cmdRun c k, s =>
    (k (host.run c s.world).1).exec host
      { s with world := (host.run c s.world).2, history := s.history ++ [Event.launch c] }
  | .combinedOutput c k, s =>
    (k (host.combinedOutput c s.world).1).exec host
      { s with world := (host.combinedOutput c s.world).2,
               history := s.history ++ [Event.launch c] }

/-- One primitive operation of a program on the application state: `none` when
the program cannot move now (it has returned, or it waits for the mutex),
`Except.error` when the operation ends the process, else the rest of the
program and the new state. -/
def Prog.step {W α : Type} (host : Host W) : Prog α → App W → Option (Except Halt (Prog α × App W))
  | .ret _, _ => none
  | .halt h, _ => some (.error h)
  | .enter n k, s => some (.ok (k, { s with history := s.history ++ [Event.build n] }))
  | .lock k, s => if s.mu then none else some (.ok (k, { s with mu := true }))
  | .unlock k, s =>
    if s.mu then some (.ok (k, { s with mu := false })) else some (.error Halt.unlockOfUnlocked)
  | .write t k, s => some (.ok (k, { s with textView := s.textView ++ [t] }))
  | .clear k, s => some (.ok (k, { s with textView := [] }))
  | .getResults k, s => some (.ok (k s.results, s))
  | .setResults rs k, s => some (.ok (k, { s with results := rs }))
  | .print t k, s => some (.ok (k, { s with stdout := s.stdout ++ [t] }))
  | .now k, s => some (.ok (k (host.clock s.world).1, { s with world := (host.clock s.world).2 }))
  | .abs p k, s => some (.ok (k (host.abs p s.world), s))
  | .stat p k, s => some (.ok (k (host.statNotExist p s.world), s))
  | .environ k, s => some (.ok (k (host.environ s.world), s))
  | .cmdRun c k, s =>
    some (.ok (k (host.run c s.world).1,
      { s with world := (host.run c s.world).2, history := s.history ++ [Event.launch c] }))
  | .combinedOutput c k, s =>
    some (.ok (k (host.combinedOutput c s.world).1,
      { s with world := (host.combinedOutput c s.world).2,
               history := s.history ++ [Event.launch c] }))

/-- Whether a goroutine holds the mutex after the first operation of `p`, given
whether it held it before. -/
def Prog.holdsAfter {α : Type} : Prog α → Bool → Bool
  | .lock _, _ => true
  | .unlock _, _ => false
  | _, b => b

/-! ## The log sink, the command runner and the project builder -/

/-- The method `App.log` (lines 511-516). -/
def log (text : GoString) : Prog Unit :=
  Prog.lock (Prog.write (text ++ lit "\n") (Prog.unlock (Prog.ret ())))

/-- Go `time.Since(start)`. -/
def since (start : Int) : Prog Int := Prog.now (fun t => Prog.ret (t - start))

/-- The expression `exec.Command(parts[0], parts[1:]...)`: indexing an empty
slice panics. -/
def commandOfParts : List GoString → Prog Cmd
  | [] => Prog.halt (Halt.indexOutOfRange 0 0)
  | name :: args => Prog.ret (Command name args)

/-- The entries `fmt.Sprintf("%s=%s", k, v)` appended to `cmd.Env`. -/
def envEntries (env : List (GoString × GoString)) : List GoString :=
  env.map (fun kv => kv.1 ++ lit "=" ++ kv.2)

/-- The method `App.executeCommand` (lines 458-498). -/
def executeCommand (plat : Platform) (cmdStr : GoString) (proj : Project) :
    Prog (GoString × Option GoString) := do
  let absPath ← Prog.abs proj.Path Prog.ret
  let cmd ←
    if plat.GOOS = lit "windows" then
      if HasPrefix cmdStr (lit "powershell") || HasPrefix cmdStr (lit "pwsh") then
        commandOfParts (Fields cmdStr)
      else
        pure (Command (lit "cmd") [lit "/C", cmdStr])
    else
      commandOfParts (Fields cmdStr)
  let environ ← Prog.environ Prog.ret
  let cmd := { cmd with Dir := absPath, Env := environ ++ envEntries proj.Env }
  let (outputStr, err) ← Prog.combinedOutput cmd Prog.ret
  let lines := Split newline outputStr
  let displayLines := 10
  if lines.length > displayLines then
    log (Join (lines.drop (lines.length - displayLines)) (lit "\n"))
  else
    log outputStr
  return (outputStr, err)

/-- The method `App.createCommand` (lines 501-509). -/
def createCommand (name : GoString) (args : List GoString) (dir : GoString)
    (env : List (GoString × GoString)) : Prog Cmd := do
  let environ ← Prog.environ Prog.ret
  return { Command name args with Dir := dir, Env := environ ++ envEntries env }

/-- The method `App.gitPull` (lines 426-456); `none` is the `nil` error. -/
def gitPull (plat : Platform) (proj : Project) : Prog (Option GoString) := do
  let absPath ← Prog.abs proj.Path Prog.ret
  let missing ← Prog.stat (plat.joinPath absPath (lit ".git")) Prog.ret
  if missing then
    log (lit "[yellow]跳过 Git 操作 (非 Git 仓库)[-]")
    return none
  else
    let switched ←
      if proj.Git.Branch ≠ [] then do
        let cmd ← createCommand (lit "git") [lit "checkout", proj.Git.Branch] absPath proj.Env
        match ← Prog.cmdRun cmd Prog.ret with
        | some err => pure (some (lit "切换分支失败: " ++ err))
        | none =>
          log (lit "[blue]切换到分支: " ++ proj.Git.Branch ++ lit "[-]")
          pure none
      else pure none
    match switched with
    | some err => return some err
    | none =>
      if proj.Git.Reset then
        let cmd ← createCommand (lit "git") [lit "reset", lit "--hard", lit "HEAD"] absPath proj.Env
        let _ ← Prog.cmdRun cmd Prog.ret
      let cmd ← createCommand (lit "git") [lit "pull"] absPath proj.Env
      let (output, err) ← Prog.combinedOutput cmd Prog.ret
      match err with
      | some e => return some (lit "git pull 失败: " ++ e)
      | none =>
        log (lit "[blue]Git: " ++ TrimSpace output ++ lit "[-]")
        return none

/-- The command loop of `buildProject` (lines 404-417) together with what
follows it (lines 419-423): `cmds` are the commands still to run, `result` the
result so far.  A failing command returns from `buildProject`. -/
def buildCommands (plat : Platform) (proj : Project) (start : Int) :
    List GoString → BuildResult → Prog BuildResult
  | [], result => do
    let d ← since start
    let result := { result with Success := true, Duration := d }
    log (lit "[green]✓ " ++ proj.Name ++ lit " 构建成功 (耗时: " ++ plat.durationString d
      ++ lit ")[-]")
    return result
  | cmd :: rest, result => do
    log (lit "[yellow]$ " ++ cmd ++ lit "[-]")
    let (output, err) ← executeCommand plat cmd proj
    let result := { result with Output := result.Output ++ output }
    match err with
    | some e =>
      let result := { result with Success := false, Error := e }
      log (lit "[red]✗ 命令执行失败: " ++ e ++ lit "[-]")
      let d ← since start
      return { result with Duration := d }
    | none => buildCommands plat proj start rest result

/-- The refresh step of `buildProject` (lines 393-401): the error of `gitPull`
when a pull is configured. -/
def refresh (plat : Platform) (proj : Project) : Prog (Option GoString) :=
  if proj.Git.Pull then gitPull plat proj else pure none

/-- The start of `buildProject` (lines 387-394): the timer is started, the
project announced and the refresh step run.  The value is the start time and
the error of the refresh step. -/
def beginProject (plat : Platform) (proj : Project) : Prog (Int × Option GoString) := do
  let start ← Prog.now Prog.ret
  Prog.enter proj.Name (Prog.ret ())
  log (lit "\n[cyan]>>> 构建项目: " ++ proj.Name ++ lit " (" ++ proj.Typ ++ lit ")[-]")
  let gitErr ← refresh plat proj
  return (start, gitErr)

/-- The method `App.buildProject` (lines 386-424). -/
def buildProject (plat : Platform) (proj : Project) : Prog BuildResult := do
  let (start, gitErr) ← beginProject plat proj
  let result : BuildResult := { Project := proj.Name }
  match gitErr with
  | some err =>
    let result := { result with Success := false, Error := err }
    log (lit "[red]Git 操作失败: " ++ err ++ lit "[-]")
    let d ← since start
    return { result with Duration := d }
  | none => buildCommands plat proj start proj.Build.Commands result

/-! ## The result reporter and the sequential scheduler -/

/-- The loop of `showSummary` (lines 521-530): one line per result, counting. -/
def summaryLoop (plat : Platform) : List BuildResult → Nat → Nat → Prog (Nat × Nat)
  | [], success, failed => pure (success, failed)
  | r :: rest, success, failed =>
    if r.Success then do
      log (lit "[green]✓ " ++ r.Project ++ lit " - 成功 (" ++ plat.durationString r.Duration
        ++ lit ")[-]")
      summaryLoop plat rest (success + 1) failed
    else do
      log (lit "[red]✗ " ++ r.Project ++ lit " - 失败: " ++ r.Error ++ lit "[-]")
      summaryLoop plat rest success (failed + 1)

/-- The method `App.showSummary` (lines 518-535). -/
def showSummary (plat : Platform) : Prog Unit := do
  log (lit "\n[green]========== 构建汇总 ==========[-]")
  let results ← Prog.getResults Prog.ret
  let (success, failed) ← summaryLoop plat results 0 0
  log (lit "\n总计: " ++ itoa success ++ lit " 成功, " ++ itoa failed ++ lit " 失败")
  log (lit "平台: " ++ plat.GOOS ++ lit "/" ++ plat.GOARCH)
  log (lit "[yellow]按 Ctrl+C 退出[-]")

/-- The statements `a.mu.Lock(); a.results = append(a.results, result);
a.mu.Unlock()` (lines 355-357 and 376-378). -/
def appendResult (result : BuildResult) : Prog Unit :=
  Prog.lock (Prog.getResults (fun rs =>
    Prog.setResults (rs ++ [result]) (Prog.unlock (Prog.ret ()))))

/-- The loop of `buildSequential` (lines 353-363). -/
def sequentialLoop (plat : Platform) (cfg : Config) : List Project → Prog Unit
  | [] => pure ()
  | proj :: rest => do
    let result ← buildProject plat proj
    appendResult result
    if !result.Success && cfg.Global.StopOnError then
      log (lit "[red]构建失败,停止后续构建[-]")
    else
      sequentialLoop plat cfg rest

/-- The body of the goroutine started by `App.buildSequential` (lines 351-366). -/
def buildSequential (plat : Platform) (cfg : Config) (projects : List Project) : Prog Unit := do
  sequentialLoop plat cfg projects
  showSummary plat

/-! ## Selection state -/

/-- The list built by `runInteractive` (lines 197-208): `i` is the index of the
project in the configuration, `items` the items added so far. -/
def addItems : List Project → Nat → List Item → List Item
  | [], _, items => items
  | proj :: rest, i, items =>
    if proj.Disabled then addItems rest (i + 1) items
    else
      addItems rest (i + 1)
        (items ++ [{ MainText := lit "[ ]" ++ lit " " ++ proj.Name ++ lit " (" ++ proj.Typ ++ lit ")",
                     SecondaryText := proj.Path,
                     Shortcut := 48 + i % 10 }])

/-- The list view that `App.runInteractive` sets up before the event loop. -/
def runInteractive (cfg : Config) : ListView :=
  { items := addItems cfg.Projects 0 [], currentItem := 0 }

/-- The slice expression `s[n:]`. -/
def sliceFrom (s : GoString) (n : Nat) : Except Halt GoString :=
  if n ≤ s.length then .ok (s.drop n) else .error (Halt.sliceOutOfRange n s.length)

/-- The new main text of a toggled item (lines 282-286). -/
def toggleText (main : GoString) : Except Halt GoString :=
  if HasPrefix main (lit "[X]") then (sliceFrom main 3).map (lit "[ ]" ++ ·)
  else (sliceFrom main 3).map (lit "[X]" ++ ·)

/-- The method `App.toggleSelection` (lines 275-288). -/
def toggleSelection (l : ListView) : Except Halt ListView :=
  let idx := l.currentItem
  if idx < 0 then .ok l
  else
    match l.items[idx.toNat]? with
    | none => .error (Halt.indexOutOfRange idx.toNat l.items.length)
    | some item => do
      let main ← toggleText item.MainText
      pure { l with items := l.items.set idx.toNat { item with MainText := main } }

/-- The loop of `selectAll` over the items (lines 292-298). -/
def selectAllItems : List Item → Except Halt (List Item)
  | [] => .ok []
  | item :: rest => do
    let item ←
      if HasPrefix item.MainText (lit "[ ]") then
        (sliceFrom item.MainText 3).map (fun t => { item with MainText := lit "[X]" ++ t })
      else pure item
    let rest ← selectAllItems rest
    pure (item :: rest)

/-- The method `App.selectAll` (lines 290-299). -/
def selectAll (l : ListView) : Except Halt ListView := do
  let items ← selectAllItems l.items
  pure { l with items := items }

/-- The loop of `deselectAll` over the items (lines 303-309). -/
def deselectAllItems : List Item → Except Halt (List Item)
  | [] => .ok []
  | item :: rest => do
    let item ←
      if HasPrefix item.MainText (lit "[X]") then
        (sliceFrom item.MainText 3).map (fun t => { item with MainText := lit "[ ]" ++ t })
      else pure item
    let rest ← deselectAllItems rest
    pure (item :: rest)

/-- The method `App.deselectAll` (lines 301-310). -/
def deselectAll (l : ListView) : Except Halt ListView := do
  let items ← deselectAllItems l.items
  pure { l with items := items }

/-- The inner loop of `startBuild` (lines 320-329): the project at position `i`
among those not disabled, `enabledIdx` counting the ones passed. -/
def findEnabled (i : Nat) : List Project → Nat → Option Project
  | [], _ => none
  | proj :: rest, enabledIdx =>
    if !proj.Disabled then
      if enabledIdx = i then some proj else findEnabled i rest (enabledIdx + 1)
    else findEnabled i rest enabledIdx

/-- The outer loop of `startBuild` (lines 316-332): `items` are the items from
index `i` on, `selected` the projects appended so far. -/
def selectLoop (cfg : Config) : List Item → Nat → List Project → List Project
  | [], _, selected => selected
  | item :: rest, i, selected =>
    if HasPrefix item.MainText (lit "[X]") then
      match findEnabled i cfg.Projects 0 with
      | some proj => selectLoop cfg rest (i + 1) (selected ++ [proj])
      | none => selectLoop cfg rest (i + 1) selected
    else selectLoop cfg rest (i + 1) selected

/-- The value of `selectedProjects` in `startBuild` after its loop (lines 314-332). -/
def selectedProjects (cfg : Config) (l : ListView) : List Project :=
  selectLoop cfg l.items 0 []

/-- The goroutine that `startBuild` starts, if any. -/
inductive Launch where
  /-- Nothing selected: no goroutine. -/
  | nothing
  /-- The goroutine of `buildSequential`. -/
  | sequential (projects : List Project)
  /-- The goroutine of `buildParallel`. -/
  | parallel (projects : List Project)
  deriving DecidableEq, Repr

/-- The method `App.startBuild` (lines 312-349), up to the `go` statement. -/
def startBuild (cfg : Config) (l : ListView) : Prog Launch := do
  let selected := selectedProjects cfg l
  if selected.length = 0 then
    log (lit "[yellow]请至少选择一个项目[-]")
    return Launch.nothing
  else
    Prog.clear (Prog.ret ())
    log (lit "[green]开始构建...[-]")
    Prog.setResults [] (Prog.ret ())
    if cfg.Global.Parallel then
      return Launch.parallel selected
    else
      return Launch.sequential selected

/-! ## Non-interactive mode -/

/-- The command loop of `runNonInteractive` (lines 556-587). -/
def batchCommands (plat : Platform) (config : Config) (proj : Project) : List GoString → Prog Unit
  | [] => pure ()
  | cmdStr :: rest => do
    Prog.print (lit "$ " ++ cmdStr ++ lit "\n") (Prog.ret ())
    let cmd ←
      if plat.GOOS = lit "windows" then
        pure (Command (lit "cmd") [lit "/C", cmdStr])
      else
        commandOfParts (Fields cmdStr)
    let absPath ← Prog.abs proj.Path Prog.ret
    let environ ← Prog.environ Prog.ret
    let cmd := { cmd with Dir := absPath, Env := environ ++ envEntries proj.Env }
    let (output, err) ← Prog.combinedOutput cmd Prog.ret
    Prog.print output (Prog.ret ())
    match err with
    | some e =>
      Prog.print (lit "✗ 失败: " ++ e ++ lit "\n") (Prog.ret ())
      if config.Global.StopOnError then
        Prog.halt (Halt.exit 1)
      else
        batchCommands plat config proj rest
    | none =>
      Prog.print (lit "✓ 成功" ++ lit "\n") (Prog.ret ())
      batchCommands plat config proj rest

/-- The project loop of `runNonInteractive` (lines 548-588). -/
def batchProjects (plat : Platform) (config : Config) : List Project → Prog Unit
  | [] => pure ()
  | proj :: rest =>
    if proj.Disabled then batchProjects plat config rest
    else do
      Prog.print (lit "\n>>> 构建: " ++ proj.Name ++ lit "\n") (Prog.ret ())
      batchCommands plat config proj proj.Build.Commands
      batchProjects plat config rest

/-- The function `runNonInteractive` (lines 538-591); `loaded` is what
`loadConfig(configPath)` returned. -/
def runNonInteractive (plat : Platform) (loaded : Except GoString Config) : Prog Unit :=
  match loaded with
  | .error err => do
    Prog.print (lit "错误: " ++ err ++ lit "\n") (Prog.ret ())
    Prog.halt (Halt.exit 1)
  | .ok config => do
    Prog.print (lit "=== Yeah-Build 非交互模式 ===\n") (Prog.ret ())
    Prog.print (lit "平台: " ++ plat.GOOS ++ lit "/" ++ plat.GOARCH ++ lit "\n\n") (Prog.ret ())
    batchProjects plat config config.Projects
    Prog.print (lit "\n构建完成!\n") (Prog.ret ())

/-! ## Parallel mode: the goroutines of `buildParallel`, step by step -/

/-- The body of the goroutine that `buildParallel` starts for one project
(lines 373-379), without the deferred `wg.Done()`.  Its value is the result it
appended. -/
def buildTask (plat : Platform) (p : Project) : Prog BuildResult := do
  let result ← buildProject plat p
  appendResult result
  return result

/-- A goroutine started by `buildParallel`: its argument `p`, what is left of
its body, and whether its deferred `wg.Done()` has run.  `holds` is
instrumentation: whether this goroutine holds `a.mu`. -/
structure Task where
  p : Project
  prog : Prog BuildResult
  holds : Bool := false
  exited : Bool := false

/-- Where the goroutine of `buildParallel` (lines 369-383) stands. -/
inductive MainPc where
  /-- At the head of the loop, `rest` still to range over; with nothing left, at
  `wg.Wait()`. -/
  | loop (rest : List Project)
  /-- After `wg.Add(1)`, at the `go` statement for `p`. -/
  | spawn (p : Project) (rest : List Project)
  /-- Past `wg.Wait()`, in `showSummary`, `prog` still to run. -/
  | summary (prog : Prog Unit)

/-- The state of a parallel build: the application, the counter of the wait
group, the goroutine of `buildParallel`, the goroutines it has started, and what
ended the process, if anything did. -/
structure Par (W : Type) where
  app : App W
  wg : Nat := 0
  main : MainPc
  tasks : List Task := []
  halted : Option Halt := none

/-- A goroutine of the parallel build. -/
inductive Who where
  /-- The goroutine of `buildParallel`. -/
  | main
  /-- The goroutine started for the project at position `i`. -/
  | task (i : Nat)
  deriving DecidableEq, Repr

/-- One step of the goroutine of `buildParallel`; `none` when it cannot move. -/
def Par.stepMain {W : Type} (host : Host W) (plat : Platform) (m : Par W) : Option (Par W) :=
  match m.main with
  | .loop (p :: rest) => some { m with wg := m.wg + 1, main := MainPc.spawn p rest }
  | .spawn p rest =>
    some { m with tasks := m.tasks ++ [{ p := p, prog := buildTask plat p }],
                  main := MainPc.loop rest }
  | .loop [] =>
    if m.wg = 0 then some { m with main := MainPc.summary (showSummary plat) } else none
  | .summary prog =>
    match prog.step host m.app with
    | none => none
    | some (.error h) => some { m with halted := some h }
    | some (.ok (q, s)) => some { m with app := s, main := MainPc.summary q }

/-- One step of the goroutine at position `i`; `none` when there is none or it
cannot move.  A body that has returned runs the deferred `wg.Done()`. -/
def Par.stepTask {W : Type} (host : Host W) (i : Nat) (m : Par W) : Option (Par W) :=
  match m.tasks[i]? with
  | none => none
  | some t =>
    if t.exited then none
    else
      match t.prog with
      | .ret _ =>
        if m.wg = 0 then some { m with halted := some Halt.negativeCounter }
        else some { m with wg := m.wg - 1, tasks := m.tasks.set i { t with exited := true } }
      | prog =>
        match prog.step host m.app with
        | none => none
        | some (.error h) => some { m with halted := some h }
        | some (.ok (q, s)) =>
          some { m with app := s
                        tasks := m.tasks.set i { t with prog := q, holds := prog.holdsAfter t.holds } }

/-- One step of the parallel build, taken by `who`; nothing moves once the
process has ended. -/
def Par.step {W : Type} (host : Host W) (plat : Platform) (who : Who) (m : Par W) :
    Option (Par W) :=
  if m.halted.isSome then none
  else
    match who with
    | .main => Par.stepMain host plat m
    | .task i => Par.stepTask host i m

/-- The steps of a schedule, one after the other; `none` when a goroutine of the
schedule cannot move at its turn. -/
def Par.run {W : Type} (host : Host W) (plat : Platform) : List Who → Par W → Option (Par W)
  | [], m => some m
  | who :: rest, m =>
    match Par.step host plat who m with
    | none => none
    | some m1 => Par.run host plat rest m1

/-! ## Definitions used in the statements -/

/-- The projects of the configuration that are not disabled, in its order. -/
def enabledProjects (cfg : Config) : List Project :=
  cfg.Projects.filter (fun p => !p.Disabled)

/-- An item with its marker set: `[X]` in place of its first three bytes for
`true`, the item as it is for `false`. -/
def setMark (item : Item) (m : Bool) : Item :=
  if m then { item with MainText := lit "[X]" ++ item.MainText.drop 3 } else item

/-- A list view with the marker of its items set as `marks` says, item by item. -/
def withMarks (l : ListView) (marks : List Bool) : ListView :=
  { l with items := List.zipWith setMark l.items marks }

/-- What `deselectAll` does to one item. -/
def unmarkItem (item : Item) : Item :=
  if HasPrefix item.MainText (lit "[X]") then { item with MainText := lit "[ ]" ++ item.MainText.drop 3 }
  else item

/-- What `selectAll` does to one item. -/
def markItem (item : Item) : Item :=
  if HasPrefix item.MainText (lit "[ ]") then { item with MainText := lit "[X]" ++ item.MainText.drop 3 }
  else item

/-- The line of `showSummary` for one result: a success line with the project and
the duration, or a failure line with the project and the error text. -/
def resultLine (plat : Platform) (r : BuildResult) : GoString :=
  if r.Success then
    lit "[green]✓ " ++ r.Project ++ lit " - 成功 (" ++ plat.durationString r.Duration ++ lit ")[-]"
  else
    lit "[red]✗ " ++ r.Project ++ lit " - 失败: " ++ r.Error ++ lit "[-]"

/-- The chunks that logging `lines` one after the other writes to the text view. -/
def logged (lines : List GoString) : List GoString :=
  lines.map (fun line => line ++ lit "\n")

/-- The projects built one after the other, each to its end, whatever the
outcomes: the list of the outcomes of `buildProject`, in the order of the
projects. -/
def buildEach (plat : Platform) : List Project → Prog (List BuildResult)
  | [] => pure []
  | proj :: rest => do
    let r ← buildProject plat proj
    let rs ← buildEach plat rest
    pure (r :: rs)

/-- The commands of a project run one after the other, each echoed to the log
first, whatever their results: the list of what the command runner returned
(output and error), in the order of the commands. -/
def runEach (plat : Platform) (proj : Project) :
    List GoString → Prog (List (GoString × Option GoString))
  | [] => pure []
  | cmd :: rest => do
    log (lit "[yellow]$ " ++ cmd ++ lit "[-]")
    let r ← executeCommand plat cmd proj
    let rs ← runEach plat proj rest
    pure (r :: rs)

/-- A program that, run alone from a state with the mutex free, returns a value
and leaves the mutex free. -/
def Returns {W α : Type} (host : Host W) (p : Prog α) : Prop :=
  ∀ s : App W, s.mu = false → ∃ a s1, p.exec host s = .ok (a, s1) ∧ s1.mu = false

/-- A command line that `executeCommand` can turn into a command: on Windows
every one, elsewhere one with at least one field. -/
def Launchable (plat : Platform) (cmdStr : GoString) : Prop :=
  plat.GOOS = lit "windows" ∨ Fields cmdStr ≠ []

instance (plat : Platform) (cmdStr : GoString) : Decidable (Launchable plat cmdStr) :=
  inferInstanceAs (Decidable (plat.GOOS = lit "windows" ∨ Fields cmdStr ≠ []))

/-- The text after the first `k` newline bytes of `s` (nothing when `s` has
fewer): `s` without its first `k` lines. -/
def dropLines : Nat → GoString → GoString
  | 0, s => s
  | _ + 1, [] => []
  | k + 1, b :: s => if b = newline then dropLines k s else dropLines (k + 1) s

/-- The arguments (`cmd.Args`) that batch mode gives the process for a command
line: `cmd /C` and the line on Windows, the fields of the line elsewhere. -/
def batchArgs (plat : Platform) (cmdStr : GoString) : List GoString :=
  if plat.GOOS = lit "windows" then [lit "cmd", lit "/C", cmdStr] else Fields cmdStr

/-- The arguments of the processes launched, in the order of launch. -/
def launchedArgs (history : List Event) : List (List GoString) :=
  history.filterMap (fun e => match e with | .launch c => some c.Args | .build _ => none)

/-- The value of a program that has returned. -/
def outcomeOf : Prog BuildResult → Option BuildResult
  | .ret r => some r
  | _ => none

/-- The values of the task goroutines that have returned, in the order of the
goroutines. -/
def Par.outcomes {W : Type} (m : Par W) : List BuildResult :=
  m.tasks.filterMap (fun t => outcomeOf t.prog)

/-! ## Invariants of the programs and of the parallel build -/

/-- A program that takes and releases the mutex in pairs and never assigns
`a.results`; it reads `a.results` only if `rd`.  `held` says whether it holds
the mutex at its start, and `post` holds of every value it returns. -/
inductive Calm {α : Type} (rd : Bool) (post : α → Prop) : Bool → Prog α → Prop where
  | ret {a : α} : post a → Calm rd post false (Prog.ret a)
  | halt {held : Bool} {h : Halt} : Calm rd post held (Prog.halt h)
  | enter {held : Bool} {n : GoString} {k : Prog α} :
    Calm rd post held k → Calm rd post held (Prog.enter n k)
  | lock {k : Prog α} : Calm rd post true k → Calm rd post false (Prog.lock k)
  | unlock {k : Prog α} : Calm rd post false k → Calm rd post true (Prog.unlock k)
  | write {held : Bool} {t : GoString} {k : Prog α} :
    Calm rd post held k → Calm rd post held (Prog.write t k)
  | clear {held : Bool} {k : Prog α} : Calm rd post held k → Calm rd post held (Prog.clear k)
  | getResults {held : Bool} {k : List BuildResult → Prog α} :
    rd = true → (∀ rs, Calm rd post held (k rs)) → Calm rd post held (Prog.getResults k)
  | print {held : Bool} {t : GoString} {k : Prog α} :
    Calm rd post held k → Calm rd post held (Prog.print t k)
  | now {held : Bool} {k : Int → Prog α} :
    (∀ t, Calm rd post held (k t)) → Calm rd post held (Prog.now k)
  | abs {held : Bool} {p : GoString} {k : GoString → Prog α} :
    (∀ q, Calm rd post held (k q)) → Calm rd post held (Prog.abs p k)
  | stat {held : Bool} {p : GoString} {k : Bool → Prog α} :
    (∀ b, Calm rd post held (k b)) → Calm rd post held (Prog.stat p k)
  | environ {held : Bool} {k : List GoString → Prog α} :
    (∀ e, Calm rd post held (k e)) → Calm rd post held (Prog.environ k)
  | cmdRun {held : Bool} {c : Cmd} {k : Option GoString → Prog α} :
    (∀ e, Calm rd post held (k e)) → Calm rd post held (Prog.cmdRun c k)
  | combinedOutput {held : Bool} {c : Cmd} {k : GoString × Option GoString → Prog α} :
    (∀ r, Calm rd post held (k r)) → Calm rd post held (Prog.combinedOutput c k)

/-- The end of the body of a task goroutine: the result is appended under the
mutex; the value is the result. -/
def publish (r : BuildResult) : Prog BuildResult := do
  appendResult r
  return r

/-- The result a task goroutine has appended to `a.results` so far, read off
what is left of its body: it has appended once only the unlock or nothing is
left. -/
def contribOf : Prog BuildResult → Option BuildResult
  | .unlock (.ret r) => some r
  | .ret r => some r
  | _ => none

/-- Where a task goroutine can stand, `results` being the results list of the
moment: in `buildProject`; holding the mutex about to read `a.results`; about to
assign it; about to unlock; returned. -/
inductive TaskOk (results : List BuildResult) : Task → Prop where
  | building (p : Project) (q : Prog BuildResult) (holds : Bool) :
    Calm false (fun r : BuildResult => r.Project = p.Name) holds q →
    TaskOk results { p := p, prog := q.bind publish, holds := holds, exited := false }
  | reading (p : Project) (r : BuildResult) : r.Project = p.Name →
    TaskOk results
      { p := p
        prog := Prog.getResults (fun rs => Prog.setResults (rs ++ [r]) (Prog.unlock (Prog.ret r)))
        holds := true, exited := false }
  | writing (p : Project) (r : BuildResult) : r.Project = p.Name →
    TaskOk results
      { p := p, prog := Prog.setResults (results ++ [r]) (Prog.unlock (Prog.ret r))
        holds := true, exited := false }
  | releasing (p : Project) (r : BuildResult) : r.Project = p.Name →
    TaskOk results { p := p, prog := Prog.unlock (Prog.ret r), holds := true, exited := false }
  | returned (p : Project) (r : BuildResult) (e : Bool) : r.Project = p.Name →
    TaskOk results { p := p, prog := Prog.ret r, holds := false, exited := e }

/-- The invariant of a parallel build of `ps` before `wg.Wait()` returns:
`pending` are the projects the loop has not started a goroutine for, `extra`
counts a `wg.Add(1)` whose goroutine is not started yet. -/
structure Core {W : Type} (ps : List Project) (m : Par W) (pending : List Project)
    (extra : Nat) : Prop where
  ok : ∀ t ∈ m.tasks, TaskOk m.app.results t
  holders : m.tasks.countP (fun t => t.holds) = (if m.app.mu then 1 else 0)
  perm : List.Perm m.app.results (m.tasks.filterMap (fun t => contribOf t.prog))
  wg : m.wg = m.tasks.countP (fun t => !t.exited) + extra
  projs : ps = m.tasks.map (fun t => t.p) ++ pending

/-- The invariant of a parallel build of `ps` once `wg.Wait()` has returned. -/
structure AllDone {W : Type} (ps : List Project) (m : Par W) : Prop where
  done : ∀ t ∈ m.tasks, ∃ r, t.prog = Prog.ret r ∧ r.Project = t.p.Name ∧ t.exited = true
  perm : List.Perm m.app.results m.outcomes
  projs : ps = m.tasks.map (fun t => t.p)

/-- The invariant of a parallel build of `ps`. -/
def Inv {W : Type} (ps : List Project) (m : Par W) : Prop :=
  match m.main with
  | .loop rest => Core ps m rest 0
  | .spawn p rest => Core ps m (p :: rest) 1
  | .summary q => AllDone ps m ∧ ∃ b, Calm true (fun _ : Unit => True) b q

/-! ## Examples -/

/-- A platform for the examples: Linux. -/
def exampleLinux : Platform :=
  { GOOS := lit "linux"
    GOARCH := lit "amd64"
    joinPath := fun a b => a ++ lit "/" ++ b
    durationString := fun d => itoa d.toNat ++ lit "ns" }

/-- A host for the examples.  The world is a counter of clock readings and
process launches.  `echo` prints its arguments on one line, `lines` prints each
argument on a line of its own, `true` prints nothing, and every other program
fails with exit status 1. -/
def exampleHost : Host Nat where
  clock := fun w => (w, w + 1)
  abs := fun p _ => lit "/work/" ++ p
  statNotExist := fun _ _ => true
  environ := fun _ => []
  run := fun _ w => (none, w + 1)
  combinedOutput := fun c w =>
    if c.Path = lit "echo" then ((Join (c.Args.drop 1) (lit " ") ++ lit "\n", none), w + 1)
    else if c.Path = lit "lines" then (((c.Args.drop 1).flatMap (fun a => a ++ lit "\n"), none), w + 1)
    else if c.Path = lit "true" then (([], none), w + 1)
    else (([], some (lit "exit status 1")), w + 1)

/-- An application state for the examples: nothing logged, no results. -/
def exampleApp : App Nat := { world := 0 }

/-- A project without commands, to run single commands in. -/
def exampleEmpty : Project := { Name := lit "svc", Path := lit "p" }

/-- A project without a refresh step whose only command is the empty string. -/
def exampleBlank : Project :=
  { Name := lit "svc-blank", Path := lit "blank", Build := { Commands := [lit ""] } }

/-- A project whose first command fails and whose second command would succeed. -/
def exampleFailFirst : Project :=
  { Name := lit "svc-f", Path := lit "f", Build := { Commands := [lit "false", lit "echo hi"] } }

/-- A configuration for batch mode: `exampleFailFirst` alone, no stop on error. -/
def exampleBatch : Config :=
  { Projects := [exampleFailFirst], Global := { StopOnError := false } }

/-- The project of the scenario: `echo A1` succeeds, `false` fails. -/
def exampleSvcA : Project :=
  { Name := lit "svc-a", Path := lit "a", Build := { Commands := [lit "echo A1", lit "false"] } }

/-- A project whose only command succeeds. -/
def exampleSvcB : Project :=
  { Name := lit "svc-b", Path := lit "b", Build := { Commands := [lit "echo B1"] } }

/-- A third project, with one succeeding command. -/
def exampleSvcC : Project :=
  { Name := lit "svc-c", Path := lit "c", Build := { Commands := [lit "true"] } }

/-- A disabled project. -/
def exampleOff : Project :=
  { Name := lit "svc-off", Path := lit "off", Disabled := true,
    Build := { Commands := [lit "echo off"] } }

/-- A configuration with stop on error: `svc-b`, a disabled project, `svc-a`
(whose second command fails) and `svc-c`. -/
def exampleStopConfig : Config :=
  { Interactive := true
    Projects := [exampleSvcB, exampleOff, exampleSvcA, exampleSvcC]
    Global := { Parallel := false, StopOnError := true } }

/-- The same projects without stop on error. -/
def exampleGoOnConfig : Config :=
  { exampleStopConfig with Global := { Parallel := false, StopOnError := false } }

/-- A result left over from an earlier run. -/
def exampleStale : BuildResult :=
  { Project := lit "old", Success := true, Duration := 7 }

/-- The application with `cfg`, every item of its list marked, and a result
left over from an earlier run. -/
def exampleAppOf (cfg : Config) : App Nat :=
  { config := cfg
    list := withMarks (runInteractive cfg) [true, true, true]
    results := [exampleStale]
    world := 0 }

/-- An application state as `buildSequential` hands it to `showSummary`: the three
results of a run without stop on error (`svc-b` built, `svc-a` failed, `svc-c`
built) and a line already in the text view. -/
def exampleMixed : App Nat :=
  { config := exampleGoOnConfig
    textView := [lit "[green]开始构建...[-]\n"]
    results :=
      [{ Project := lit "svc-b", Success := true, Output := lit "B1\n", Error := [], Duration := 2 },
       { Project := lit "svc-a", Success := false, Output := lit "A1\n",
         Error := lit "exit status 1", Duration := 3 },
       { Project := lit "svc-c", Success := true, Output := [], Error := [], Duration := 2 }]
    world := 7 }

/-! # Theorems -/

/-! ## Selection state: theorems -/

theorem lit_checked : lit "[X]" = [91, 88, 93] := by decide
theorem lit_unchecked : lit "[ ]" = [91, 32, 93] := by decide

theorem hasPrefix_iff (s p : GoString) : HasPrefix s p = true ↔ ∃ t, s = p ++ t := by
  unfold HasPrefix
  rw [List.isPrefixOf_iff_prefix]
  constructor
  · rintro ⟨t, rfl⟩; exact ⟨t, rfl⟩
  · rintro ⟨t, rfl⟩; exact ⟨t, rfl⟩

theorem hasPrefix_append (p t : GoString) : HasPrefix (p ++ t) p = true :=
  (hasPrefix_iff _ _).2 ⟨t, rfl⟩

theorem checked_not_unchecked (t : GoString) : HasPrefix (lit "[X]" ++ t) (lit "[ ]") = false := by
  rw [lit_checked, lit_unchecked]; simp [HasPrefix, List.isPrefixOf]

theorem unchecked_not_checked (t : GoString) : HasPrefix (lit "[ ]" ++ t) (lit "[X]") = false := by
  rw [lit_checked, lit_unchecked]; simp [HasPrefix, List.isPrefixOf]

theorem sliceFrom_checked (t : GoString) : sliceFrom (lit "[X]" ++ t) 3 = .ok t := by
  rw [lit_checked]; simp [sliceFrom]

theorem sliceFrom_unchecked (t : GoString) : sliceFrom (lit "[ ]" ++ t) 3 = .ok t := by
  rw [lit_unchecked]; simp [sliceFrom]

theorem toggleText_unchecked (t : GoString) : toggleText (lit "[ ]" ++ t) = .ok (lit "[X]" ++ t) := by
  simp [toggleText, unchecked_not_checked, sliceFrom_unchecked, Except.map]

theorem toggleText_checked (t : GoString) : toggleText (lit "[X]" ++ t) = .ok (lit "[ ]" ++ t) := by
  simp [toggleText, hasPrefix_append, sliceFrom_checked, Except.map]

theorem selectAllItems_eq (items : List Item) : selectAllItems items = .ok (items.map markItem) := by
  induction items with
  | nil => rfl
  | cons item rest ih =>
    simp only [selectAllItems, ih, List.map_cons]
    by_cases h : HasPrefix item.MainText (lit "[ ]") = true
    · obtain ⟨t, ht⟩ := (hasPrefix_iff _ _).1 h
      have hs : sliceFrom item.MainText 3 = .ok (item.MainText.drop 3) := by
        rw [ht, sliceFrom_unchecked, lit_unchecked]; rfl
      have hm : markItem item = { item with MainText := lit "[X]" ++ item.MainText.drop 3 } := by
        unfold markItem; rw [if_pos h]
      rw [if_pos h, hs, hm]; rfl
    · have hm : markItem item = item := by simp [markItem, h]
      simp [h, hm, bind, Except.bind, pure, Except.pure]

theorem markItem_idem (item : Item) : markItem (markItem item) = markItem item := by
  by_cases h : HasPrefix item.MainText (lit "[ ]") = true
  · have : markItem item = { item with MainText := lit "[X]" ++ item.MainText.drop 3 } := by
      simp [markItem, h]
    rw [this]
    simp [markItem, checked_not_unchecked]
  · have : markItem item = item := by simp [markItem, h]
    rw [this, this]

theorem set_getElem_id {α : Type} (l : List α) (i : Nat) (h : i < l.length) :
    l.set i l[i] = l := by
  apply List.ext_getElem (by simp)
  intro n h1 h2
  by_cases hn : i = n
  · subst hn; simp
  · simp [List.getElem_set_ne hn]

theorem toggle_twice (l : ListView) (i : Nat) (item : Item) (hi : l.items[i]? = some item)
    (hm : HasPrefix item.MainText (lit "[ ]") = true ∨ HasPrefix item.MainText (lit "[X]") = true) :
    ∃ l1, toggleSelection { l with currentItem := i } = .ok l1 ∧
      toggleSelection l1 = .ok { l with currentItem := i } := by
  have hlt : i < l.items.length := by
    rcases Nat.lt_or_ge i l.items.length with h | h
    · exact h
    · rw [List.getElem?_eq_none h] at hi; cases hi
  have hget : l.items[i] = item := by
    rw [List.getElem?_eq_getElem hlt] at hi; exact Option.some.inj hi
  have hneg : ¬ ((i : Int) < 0) := by omega
  rcases hm with h | h
  · obtain ⟨t, ht⟩ := (hasPrefix_iff _ _).1 h
    refine ⟨{ items := l.items.set i { item with MainText := lit "[X]" ++ t }, currentItem := i }, ?_, ?_⟩
    · simp [toggleSelection, hneg, hi, ht, toggleText_unchecked, bind, Except.bind, pure, Except.pure]
    · have : (l.items.set i { item with MainText := lit "[X]" ++ t })[i]? =
          some { item with MainText := lit "[X]" ++ t } := by
        simp [hlt]
      simp only [toggleSelection, hneg, if_false, Int.toNat_ofNat, this, toggleText_checked, bind,
        Except.bind, pure, Except.pure, List.set_set]
      have : ({ item with MainText := lit "[ ]" ++ t } : Item) = l.items[i] := by
        rw [hget]; cases item; simp_all
      rw [this, set_getElem_id _ _ hlt]
  · obtain ⟨t, ht⟩ := (hasPrefix_iff _ _).1 h
    refine ⟨{ items := l.items.set i { item with MainText := lit "[ ]" ++ t }, currentItem := i }, ?_, ?_⟩
    · simp [toggleSelection, hneg, hi, ht, toggleText_checked, bind, Except.bind, pure, Except.pure]
    · have : (l.items.set i { item with MainText := lit "[ ]" ++ t })[i]? =
          some { item with MainText := lit "[ ]" ++ t } := by
        simp [hlt]
      simp only [toggleSelection, hneg, if_false, Int.toNat_ofNat, this, toggleText_unchecked, bind,
        Except.bind, pure, Except.pure, List.set_set]
      have : ({ item with MainText := lit "[X]" ++ t } : Item) = l.items[i] := by
        rw [hget]; cases item; simp_all
      rw [this, set_getElem_id _ _ hlt]

/-- Claim C6.  On a list whose item texts all start with the marker `[ ]` or
`[X]`: `selectAll` returns, and a second `selectAll` leaves its result as it is;
and for every index `i` of the list, `toggleSelection` at `i` returns, and
applied once more gives back the original list view, every item as it was. -/
theorem selection_idempotent (l : ListView)
    (hmark : ∀ item ∈ l.items,
      HasPrefix item.MainText (lit "[ ]") = true ∨ HasPrefix item.MainText (lit "[X]") = true) :
    (∃ l1, selectAll l = .ok l1 ∧ selectAll l1 = .ok l1) ∧
    ∀ i : Nat, i < l.items.length →
      ∃ l1, toggleSelection { l with currentItem := i } = .ok l1 ∧
        toggleSelection l1 = .ok { l with currentItem := i } := by
  constructor
  · refine ⟨{ l with items := l.items.map markItem }, ?_, ?_⟩
    · simp [selectAll, selectAllItems_eq, bind, Except.bind, pure, Except.pure]
    · simp [selectAll, selectAllItems_eq, bind, Except.bind, pure, Except.pure, markItem_idem]
  · intro i hi
    have hget : l.items[i]? = some l.items[i] := List.getElem?_eq_getElem hi
    exact toggle_twice l i _ hget (hmark _ (List.getElem_mem hi))

theorem deselectAllItems_eq (items : List Item) :
    deselectAllItems items = .ok (items.map unmarkItem) := by
  induction items with
  | nil => rfl
  | cons item rest ih =>
    simp only [deselectAllItems, ih, List.map_cons]
    by_cases h : HasPrefix item.MainText (lit "[X]") = true
    · obtain ⟨t, ht⟩ := (hasPrefix_iff _ _).1 h
      have hs : sliceFrom item.MainText 3 = .ok (item.MainText.drop 3) := by
        rw [ht, sliceFrom_checked, lit_checked]; rfl
      have hm : unmarkItem item = { item with MainText := lit "[ ]" ++ item.MainText.drop 3 } := by
        unfold unmarkItem; rw [if_pos h]
      rw [if_pos h, hs, hm]; rfl
    · have hm : unmarkItem item = item := by simp [unmarkItem, h]
      simp [h, hm, bind, Except.bind, pure, Except.pure]

theorem findEnabled_eq (i : Nat) (ps : List Project) (k : Nat) (hk : k ≤ i) :
    findEnabled i ps k = (ps.filter (fun p => !p.Disabled))[i - k]? := by
  induction ps generalizing k with
  | nil => simp [findEnabled]
  | cons p rest ih =>
    unfold findEnabled
    by_cases hd : p.Disabled = true
    · simp [hd, ih k hk]
    · have hd2 : p.Disabled = false := by simpa using hd
      by_cases hki : k = i
      · subst hki; simp [hd2]
      · have hlt : k + 1 ≤ i := by omega
        have hsub : i - k = (i - (k + 1)) + 1 := by omega
        simp [hd2, hki, ih (k + 1) hlt, hsub]

theorem selectLoop_eq (cfg : Config) (items : List Item) (i : Nat) (selected : List Project) :
    selectLoop cfg items i selected =
      selected ++ ((((enabledProjects cfg).drop i).zip items).filter
        (fun x => HasPrefix x.2.MainText (lit "[X]"))).map Prod.fst := by
  induction items generalizing i selected with
  | nil => simp [selectLoop]
  | cons item rest ih =>
    unfold selectLoop
    rw [findEnabled_eq i cfg.Projects 0 (Nat.zero_le _), Nat.sub_zero]
    change (if HasPrefix item.MainText (lit "[X]") = true then
        match (enabledProjects cfg)[i]? with
        | some proj => selectLoop cfg rest (i + 1) (selected ++ [proj])
        | none => selectLoop cfg rest (i + 1) selected
      else selectLoop cfg rest (i + 1) selected) = _
    rcases hget : (enabledProjects cfg)[i]? with _ | p
    · have hlen : (enabledProjects cfg).length ≤ i := by
        rcases Nat.lt_or_ge i (enabledProjects cfg).length with h | h
        · rw [List.getElem?_eq_getElem h] at hget; cases hget
        · exact h
      have hdrop : (enabledProjects cfg).drop i = [] := List.drop_eq_nil_of_le hlen
      have hdrop1 : (enabledProjects cfg).drop (i + 1) = [] :=
        List.drop_eq_nil_of_le (by omega)
      simp [ih, hdrop, hdrop1]
    · have hlt : i < (enabledProjects cfg).length := by
        rcases Nat.lt_or_ge i (enabledProjects cfg).length with h | h
        · exact h
        · rw [List.getElem?_eq_none h] at hget; cases hget
      have hp : (enabledProjects cfg)[i] = p := by
        rw [List.getElem?_eq_getElem hlt] at hget; exact Option.some.inj hget
      have hdrop : (enabledProjects cfg).drop i = p :: (enabledProjects cfg).drop (i + 1) := by
        rw [← hp]; exact List.drop_eq_getElem_cons hlt
      by_cases hx : HasPrefix item.MainText (lit "[X]") = true
      · simp [ih, hdrop, hx]
      · simp [ih, hdrop, hx]

theorem selectedProjects_eq (cfg : Config) (l : ListView) :
    selectedProjects cfg l =
      (((enabledProjects cfg).zip l.items).filter
        (fun x => HasPrefix x.2.MainText (lit "[X]"))).map Prod.fst := by
  simp [selectedProjects, selectLoop_eq]

theorem addItems_texts (ps : List Project) (i : Nat) (acc : List Item) :
    (addItems ps i acc).map (fun it => it.MainText) =
      acc.map (fun it => it.MainText) ++
        (ps.filter (fun p => !p.Disabled)).map
          (fun p => lit "[ ]" ++ lit " " ++ p.Name ++ lit " (" ++ p.Typ ++ lit ")") := by
  induction ps generalizing i acc with
  | nil => simp [addItems]
  | cons p rest ih =>
    unfold addItems
    by_cases hd : p.Disabled = true
    · simp [hd, ih]
    · have hd2 : p.Disabled = false := by simpa using hd
      simp [hd2, ih]

theorem runInteractive_texts (cfg : Config) :
    (runInteractive cfg).items.map (fun it => it.MainText) =
      (enabledProjects cfg).map
        (fun p => lit "[ ]" ++ lit " " ++ p.Name ++ lit " (" ++ p.Typ ++ lit ")") := by
  simp [runInteractive, addItems_texts, enabledProjects]

theorem runInteractive_length (cfg : Config) :
    (runInteractive cfg).items.length = (enabledProjects cfg).length := by
  have h := congrArg List.length (runInteractive_texts cfg)
  simpa using h

theorem runInteractive_unchecked (cfg : Config) :
    ∀ it ∈ (runInteractive cfg).items, HasPrefix it.MainText (lit "[ ]") = true := by
  intro it hit
  have hmem : it.MainText ∈ (runInteractive cfg).items.map (fun it => it.MainText) :=
    List.mem_map.2 ⟨it, hit, rfl⟩
  rw [runInteractive_texts] at hmem
  obtain ⟨p, _, hp⟩ := List.mem_map.1 hmem
  rw [← hp]
  simp only [List.append_assoc]
  exact hasPrefix_append _ _

theorem setMark_checked (it : Item) (m : Bool)
    (h : HasPrefix it.MainText (lit "[ ]") = true) :
    HasPrefix (setMark it m).MainText (lit "[X]") = m := by
  cases m with
  | true => simp [setMark, hasPrefix_append]
  | false =>
    obtain ⟨t, ht⟩ := (hasPrefix_iff _ _).1 h
    simp [setMark, ht, unchecked_not_checked]

theorem zip_marks_filter (ps : List Project) (its : List Item) (ms : List Bool)
    (hlen : its.length = ps.length)
    (hun : ∀ it ∈ its, HasPrefix it.MainText (lit "[ ]") = true) :
    (((ps.zip (List.zipWith setMark its ms)).filter
        (fun x => HasPrefix x.2.MainText (lit "[X]"))).map Prod.fst) =
      ((ps.zip ms).filter (fun x => x.2)).map Prod.fst := by
  induction ps generalizing its ms with
  | nil => simp
  | cons p rest ih =>
    cases its with
    | nil => simp at hlen
    | cons it its1 =>
      cases ms with
      | nil => simp
      | cons m ms1 =>
        have h1 : its1.length = rest.length := by simpa using hlen
        have h2 : ∀ it ∈ its1, HasPrefix it.MainText (lit "[ ]") = true :=
          fun x hx => hun x (List.mem_cons_of_mem _ hx)
        have h3 := setMark_checked it m (hun it (List.mem_cons_self _ _))
        simp only [List.zipWith_cons_cons, List.zip_cons_cons, List.filter_cons, h3]
        cases m <;> simp [ih its1 ms1 h1 h2]

theorem zip_filter_all (ps : List Project) (its : List Item) (hlen : its.length = ps.length)
    (hall : ∀ it ∈ its, HasPrefix it.MainText (lit "[X]") = true) :
    (((ps.zip its).filter (fun x => HasPrefix x.2.MainText (lit "[X]"))).map Prod.fst) = ps := by
  induction ps generalizing its with
  | nil => simp
  | cons p rest ih =>
    cases its with
    | nil => simp at hlen
    | cons it its1 =>
      have h1 : its1.length = rest.length := by simpa using hlen
      simp [hall it (List.mem_cons_self _ _),
        ih its1 h1 (fun x hx => hall x (List.mem_cons_of_mem _ hx))]

theorem zip_filter_none (ps : List Project) (its : List Item)
    (hall : ∀ it ∈ its, HasPrefix it.MainText (lit "[X]") = false) :
    (((ps.zip its).filter (fun x => HasPrefix x.2.MainText (lit "[X]"))).map Prod.fst) = [] := by
  induction ps generalizing its with
  | nil => simp
  | cons p rest ih =>
    cases its with
    | nil => simp
    | cons it its1 =>
      simp [hall it (List.mem_cons_self _ _),
        ih its1 (fun x hx => hall x (List.mem_cons_of_mem _ hx))]

theorem withMarks_marker (l : ListView) (marks : List Bool)
    (hun : ∀ it ∈ l.items, HasPrefix it.MainText (lit "[ ]") = true) :
    ∀ it ∈ (withMarks l marks).items,
      HasPrefix it.MainText (lit "[ ]") = true ∨ HasPrefix it.MainText (lit "[X]") = true := by
  intro it hit
  simp only [withMarks] at hit
  rw [List.mem_iff_getElem] at hit
  obtain ⟨n, hn, hget⟩ := hit
  simp only [List.length_zipWith] at hn
  have hn1 : n < l.items.length := by omega
  have hn2 : n < marks.length := by omega
  rw [List.getElem_zipWith] at hget
  have h0 := hun _ (List.getElem_mem hn1)
  rw [← hget]
  cases hm : marks[n] with
  | true => right; have := setMark_checked l.items[n] true h0; simpa using this
  | false => left; simpa [setMark] using h0

theorem markItem_checked (it : Item)
    (h : HasPrefix it.MainText (lit "[ ]") = true ∨ HasPrefix it.MainText (lit "[X]") = true) :
    HasPrefix (markItem it).MainText (lit "[X]") = true := by
  by_cases h1 : HasPrefix it.MainText (lit "[ ]") = true
  · simp [markItem, h1, hasPrefix_append]
  · rcases h with h | h
    · exact absurd h h1
    · simp [markItem, h1, h]

theorem unmarkItem_unchecked (it : Item) :
    HasPrefix (unmarkItem it).MainText (lit "[X]") = false := by
  by_cases h1 : HasPrefix it.MainText (lit "[X]") = true
  · simp [unmarkItem, h1, unchecked_not_checked]
  · simp [unmarkItem, h1]

/-- Claim C7.  For every configuration and every marking `marks` of the list
built by `runInteractive`: item `i` of that list is the item of the `i`-th
project that is not disabled; the list `selectedProjects` of `startBuild` is the
list of the projects that are not disabled, in configuration order, whose item
is marked `[X]`; every project in it is a project of the configuration that is
not disabled; after `selectAll` it is the list of all projects that are not
disabled, and after `deselectAll` it is empty. -/
theorem startBuild_selects_marked_enabled (cfg : Config) (marks : List Bool)
    (hlen : marks.length = (runInteractive cfg).items.length) :
    (runInteractive cfg).items.map (fun it => it.MainText) =
        (enabledProjects cfg).map
          (fun p => lit "[ ]" ++ lit " " ++ p.Name ++ lit " (" ++ p.Typ ++ lit ")") ∧
    selectedProjects cfg (withMarks (runInteractive cfg) marks) =
        (((enabledProjects cfg).zip marks).filter (fun x => x.2)).map Prod.fst ∧
    (∀ p ∈ selectedProjects cfg (withMarks (runInteractive cfg) marks),
        p ∈ cfg.Projects ∧ p.Disabled = false) ∧
    (∃ l1, selectAll (withMarks (runInteractive cfg) marks) = .ok l1 ∧
        selectedProjects cfg l1 = enabledProjects cfg) ∧
    (∃ l0, deselectAll (withMarks (runInteractive cfg) marks) = .ok l0 ∧
        selectedProjects cfg l0 = []) := by
  have hsel : selectedProjects cfg (withMarks (runInteractive cfg) marks) =
      (((enabledProjects cfg).zip marks).filter (fun x => x.2)).map Prod.fst := by
    rw [selectedProjects_eq]
    exact zip_marks_filter _ _ _ (runInteractive_length cfg) (runInteractive_unchecked cfg)
  have hlen2 : (withMarks (runInteractive cfg) marks).items.length = (enabledProjects cfg).length := by
    simp [withMarks, hlen, runInteractive_length]
  refine ⟨runInteractive_texts cfg, hsel, ?_, ?_, ?_⟩
  · intro p hp
    rw [hsel] at hp
    obtain ⟨x, hx, rfl⟩ := List.mem_map.1 hp
    have hx1 : x.1 ∈ enabledProjects cfg := (List.of_mem_zip (List.mem_of_mem_filter hx)).1
    have := List.mem_filter.1 hx1
    exact ⟨this.1, by simpa using this.2⟩
  · refine ⟨{ withMarks (runInteractive cfg) marks with
        items := (withMarks (runInteractive cfg) marks).items.map markItem }, ?_, ?_⟩
    · simp [selectAll, selectAllItems_eq, bind, Except.bind, pure, Except.pure]
    · rw [selectedProjects_eq]
      apply zip_filter_all
      · simpa using hlen2
      · intro it hit
        obtain ⟨it0, h0, rfl⟩ := List.mem_map.1 hit
        exact markItem_checked it0 (withMarks_marker _ _ (runInteractive_unchecked cfg) it0 h0)
  · refine ⟨{ withMarks (runInteractive cfg) marks with
        items := (withMarks (runInteractive cfg) marks).items.map unmarkItem }, ?_, ?_⟩
    · simp [deselectAll, deselectAllItems_eq, bind, Except.bind, pure, Except.pure]
    · rw [selectedProjects_eq]
      apply zip_filter_none
      intro it hit
      obtain ⟨it0, _, rfl⟩ := List.mem_map.1 hit
      exact unmarkItem_unchecked it0

/-! ## Running a program -/

variable {W α β : Type}

@[simp] theorem exec_pure (host : Host W) (a : α) (s : App W) :
    (pure a : Prog α).exec host s = .ok (a, s) := rfl

@[simp] theorem exec_ret (host : Host W) (a : α) (s : App W) :
    (Prog.ret a).exec host s = .ok (a, s) := rfl

theorem exec_bind (host : Host W) (p : Prog α) (f : α → Prog β) (s : App W) :
    (p >>= f).exec host s =
      match p.exec host s with
      | .ok (a, s1) => (f a).exec host s1
      | .error h => .error h := by
  change (Prog.bind p f).exec host s = _
  induction p generalizing s with
  | ret a => rfl
  | halt h => rfl
  | enter n k ih => exact ih _
  | lock k ih =>
    simp only [Prog.bind, Prog.exec]
    split
    · rfl
    · exact ih _
  | unlock k ih =>
    simp only [Prog.bind, Prog.exec]
    split
    · exact ih _
    · rfl
  | write t k ih => exact ih _
  | clear k ih => exact ih _
  | getResults k ih => exact ih _ _
  | setResults rs k ih => exact ih _
  | print t k ih => exact ih _
  | now k ih => exact ih _ _
  | abs p k ih => exact ih _ _
  | stat p k ih => exact ih _ _
  | environ k ih => exact ih _ _
  | cmdRun c k ih => exact ih _ _
  | combinedOutput c k ih => exact ih _ _

theorem exec_log (host : Host W) (t : GoString) (s : App W) (hmu : s.mu = false) :
    (log t).exec host s = .ok ((), { s with textView := s.textView ++ [t ++ lit "\n"] }) := by
  cases s
  simp only at hmu
  subst hmu
  rfl

@[simp] theorem exec_getResults (host : Host W) (k : List BuildResult → Prog α) (s : App W) :
    (Prog.getResults k).exec host s = (k s.results).exec host s := rfl

/-! ## The result reporter -/

theorem exec_summaryLoop (host : Host W) (plat : Platform) (rs : List BuildResult)
    (success failed : Nat) (s : App W) (hmu : s.mu = false) :
    (summaryLoop plat rs success failed).exec host s =
      .ok ((success + rs.countP (fun r => r.Success), failed + rs.countP (fun r => !r.Success)),
        { s with textView := s.textView ++ logged (rs.map (resultLine plat)) }) := by
  induction rs generalizing success failed s with
  | nil => simp [summaryLoop, logged]
  | cons r rest ih =>
    unfold summaryLoop
    by_cases hr : r.Success = true
    · simp only [hr, if_true, exec_bind, exec_log host _ s hmu]
      rw [ih _ _ _ (by simpa using hmu)]
      simp [logged, resultLine, hr, Nat.add_assoc, Nat.add_comm 1]
    · have hr2 : r.Success = false := by simpa using hr
      simp only [hr2, Bool.false_eq_true, if_false, exec_bind, exec_log host _ s hmu]
      rw [ih _ _ _ (by simpa using hmu)]
      simp [logged, resultLine, hr2, Nat.add_assoc, Nat.add_comm 1]

/-- What `showSummary` does, started with the mutex free. -/
theorem exec_showSummary (host : Host W) (plat : Platform) (a : App W) (hmu : a.mu = false) :
    (showSummary plat).exec host a =
      .ok ((), { a with
        textView := a.textView ++ logged
          ([lit "\n[green]========== 构建汇总 ==========[-]"]
            ++ a.results.map (resultLine plat)
            ++ [lit "\n总计: " ++ itoa (a.results.countP (fun r => r.Success)) ++ lit " 成功, "
                  ++ itoa (a.results.countP (fun r => !r.Success)) ++ lit " 失败",
                lit "平台: " ++ plat.GOOS ++ lit "/" ++ plat.GOARCH,
                lit "[yellow]按 Ctrl+C 退出[-]"]) }) := by
  simp [showSummary, exec_bind, exec_log, hmu, exec_getResults, exec_summaryLoop, logged]

/-- Claim C8, amended.  For every results list, in every state in which `a.log`
gets the mutex (it is free), `showSummary` returns and writes to the log sink
exactly: the banner; one line per result, in the order of the results list
(`resultLine`: a success line with project and duration, or a failure line with
project and error text); the count line, whose two numbers are the number of
results with `Success` and the number without; the platform line; and last a
line that tells the user how to quit.  The two numbers add up to the number of
results. -/
theorem showSummary_emits (host : Host W) (plat : Platform) (a : App W) (hmu : a.mu = false) :
    (showSummary plat).exec host a =
      .ok ((), { a with
        textView := a.textView ++ logged
          ([lit "\n[green]========== 构建汇总 ==========[-]"]
            ++ a.results.map (resultLine plat)
            ++ [lit "\n总计: " ++ itoa (a.results.countP (fun r => r.Success)) ++ lit " 成功, "
                  ++ itoa (a.results.countP (fun r => !r.Success)) ++ lit " 失败",
                lit "平台: " ++ plat.GOOS ++ lit "/" ++ plat.GOARCH,
                lit "[yellow]按 Ctrl+C 退出[-]"]) }) ∧
    a.results.countP (fun r => r.Success) + a.results.countP (fun r => !r.Success)
      = a.results.length := by
  refine ⟨exec_showSummary host plat a hmu, ?_⟩
  induction a.results with
  | nil => rfl
  | cons r rest ih =>
    cases hr : r.Success <;> simp [List.countP_cons, hr] <;> omega

/-- Witness of `showSummary_emits`: a results list of three, the second a
failure, on the example host; two success lines, one failure line, the counts 2
and 1. -/
theorem showSummary_emits_witness :
    (showSummary exampleLinux).exec exampleHost exampleMixed =
      .ok ((), { exampleMixed with
        textView :=
          [lit "[green]开始构建...[-]\n",
           lit "\n[green]========== 构建汇总 ==========[-]\n",
           lit "[green]✓ svc-b - 成功 (2ns)[-]\n",
           lit "[red]✗ svc-a - 失败: exit status 1[-]\n",
           lit "[green]✓ svc-c - 成功 (2ns)[-]\n",
           lit "\n总计: 2 成功, 1 失败\n",
           lit "平台: linux/amd64\n",
           lit "[yellow]按 Ctrl+C 退出[-]\n"] }) ∧
    exampleMixed.results.countP (fun r => r.Success)
      + exampleMixed.results.countP (fun r => !r.Success) = 3 :=
  showSummary_emits exampleHost exampleLinux exampleMixed rfl

/-- Claim C8 as stated fails: for a results list of three, the second a failure,
`showSummary` emits the banner, the three result lines, the count line and the
platform line, and then one more line, about quitting; the last line emitted is
not the platform line. -/
theorem showSummary_last_line_is_hint :
    ((showSummary exampleLinux).exec exampleHost exampleMixed).map (fun r => r.2.textView) =
      .ok [lit "[green]开始构建...[-]\n",
           lit "\n[green]========== 构建汇总 ==========[-]\n",
           lit "[green]✓ svc-b - 成功 (2ns)[-]\n",
           lit "[red]✗ svc-a - 失败: exit status 1[-]\n",
           lit "[green]✓ svc-c - 成功 (2ns)[-]\n",
           lit "\n总计: 2 成功, 1 失败\n",
           lit "平台: linux/amd64\n",
           lit "[yellow]按 Ctrl+C 退出[-]\n"] ∧
    ((showSummary exampleLinux).exec exampleHost exampleMixed).map (fun r => r.2.textView.getLast?)
      ≠ .ok (some (lit "平台: linux/amd64\n")) := by
  refine ⟨rfl, fun h => ?_⟩
  have hlast : ((showSummary exampleLinux).exec exampleHost exampleMixed).map
      (fun r => r.2.textView.getLast?) = .ok (some (lit "[yellow]按 Ctrl+C 退出[-]\n")) := rfl
  rw [hlast] at h
  exact absurd (Option.some.inj (Except.ok.inj h)) (by decide)

/-! ## Concrete runs: a blank command, batch mode, the log of a command -/

theorem exec_executeCommand_blank (host : Host W) (plat : Platform) (cmdStr : GoString)
    (proj : Project) (s : App W) (hos : plat.GOOS ≠ lit "windows") (hblank : Fields cmdStr = []) :
    (executeCommand plat cmdStr proj).exec host s = .error (Halt.indexOutOfRange 0 0) := by
  simp [executeCommand, exec_bind, hos, hblank, commandOfParts, Prog.exec]

/-- Claim C4 fails on the code: on Linux, `buildProject` for a project whose
only command is the empty string, or only white space, does not return a
`BuildResult`; it panics with an index out of range (`parts[0]` of no parts). -/
theorem buildProject_halts_on_blank_command :
    (buildProject exampleLinux exampleBlank).exec exampleHost exampleApp
        = .error (Halt.indexOutOfRange 0 0) ∧
      (buildProject exampleLinux
          { exampleBlank with Build := { Commands := [lit " \t "] } }).exec exampleHost exampleApp
        = .error (Halt.indexOutOfRange 0 0) := by
  constructor <;> rfl

/-- Claim C9 fails on the code: in batch mode without stop on error, for a
project with the commands `false` and `echo hi`, the processes launched are both
commands: the second one runs although the first one failed. -/
theorem runNonInteractive_runs_on_after_failure :
    ((runNonInteractive exampleLinux (.ok exampleBatch)).exec exampleHost exampleApp).map
        (fun r => r.2.history) =
      .ok [Event.launch { Path := lit "false", Args := [lit "false"], Dir := lit "/work/f", Env := [] },
           Event.launch { Path := lit "echo", Args := [lit "echo", lit "hi"], Dir := lit "/work/f",
                          Env := [] }] := by
  rfl

/-- Claim C10 fails on the code: for a command that prints ten lines, each
ended by a newline, `executeCommand` returns the whole output but logs only the
last nine lines (the text after the first newline). -/
theorem executeCommand_logs_nine_of_ten_lines :
    ((executeCommand exampleLinux (lit "lines 1 2 3 4 5 6 7 8 9 10") exampleEmpty).exec
        exampleHost exampleApp).map (fun r => (r.1, r.2.textView)) =
      .ok ((lit "1\n2\n3\n4\n5\n6\n7\n8\n9\n10\n", none),
           [lit "2\n3\n4\n5\n6\n7\n8\n9\n10\n" ++ lit "\n"]) := by
  rfl

/-! ## Programs that leave the results list alone -/

theorem exec_bind_ok {host : Host W} {p : Prog α} {f : α → Prog β} {s s2 : App W} {b : β}
    (h : (p >>= f).exec host s = .ok (b, s2)) :
    ∃ a s1, p.exec host s = .ok (a, s1) ∧ (f a).exec host s1 = .ok (b, s2) := by
  rw [exec_bind] at h
  rcases hp : p.exec host s with e | ⟨a, s1⟩
  · rw [hp] at h; cases h
  · rw [hp] at h; exact ⟨a, s1, rfl, h⟩

theorem exec_bind_of_ok {host : Host W} {p : Prog α} {f : α → Prog β} {s s1 : App W} {a : α}
    (h : p.exec host s = .ok (a, s1)) :
    (p >>= f).exec host s = (f a).exec host s1 := by
  rw [exec_bind, h]

theorem Calm.mono {rd : Bool} {post : α → Prop} {held : Bool} {p : Prog α}
    (h : Calm rd post held p) {post2 : α → Prop} (hpost : ∀ a, post a → post2 a) :
    Calm true post2 held p := by
  induction h with
  | ret ha => exact .ret (hpost _ ha)
  | halt => exact .halt
  | enter _ ih => exact .enter ih
  | lock _ ih => exact .lock ih
  | unlock _ ih => exact .unlock ih
  | write _ ih => exact .write ih
  | clear _ ih => exact .clear ih
  | getResults _ _ ih => exact .getResults rfl ih
  | print _ ih => exact .print ih
  | now _ ih => exact .now ih
  | abs _ ih => exact .abs ih
  | stat _ ih => exact .stat ih
  | environ _ ih => exact .environ ih
  | cmdRun _ ih => exact .cmdRun ih
  | combinedOutput _ ih => exact .combinedOutput ih

theorem Calm.bind {rd : Bool} {P : α → Prop} {Q : β → Prop} {held : Bool} {p : Prog α}
    {f : α → Prog β} (h : Calm rd P held p) (hf : ∀ a, P a → Calm rd Q false (f a)) :
    Calm rd Q held (p >>= f) := by
  change Calm rd Q held (Prog.bind p f)
  induction h with
  | ret ha => exact hf _ ha
  | halt => exact .halt
  | enter _ ih => exact .enter ih
  | lock _ ih => exact .lock ih
  | unlock _ ih => exact .unlock ih
  | write _ ih => exact .write ih
  | clear _ ih => exact .clear ih
  | getResults hrd _ ih => exact .getResults hrd ih
  | print _ ih => exact .print ih
  | now _ ih => exact .now ih
  | abs _ ih => exact .abs ih
  | stat _ ih => exact .stat ih
  | environ _ ih => exact .environ ih
  | cmdRun _ ih => exact .cmdRun ih
  | combinedOutput _ ih => exact .combinedOutput ih

theorem Calm.pure {rd : Bool} {post : α → Prop} {a : α} (h : post a) :
    Calm rd post false (pure a : Prog α) := .ret h

/-- A calm program run alone: the results list is as before, the mutex is free
again if the program started with it as `held` says, and `post` holds of the
value. -/
theorem Calm.exec_post {rd : Bool} {post : α → Prop} {held : Bool} {p : Prog α}
    (h : Calm rd post held p) (host : Host W) (s s1 : App W) (a : α)
    (hx : p.exec host s = .ok (a, s1)) :
    post a ∧ s1.results = s.results ∧ (s.mu = held → s1.mu = false) := by
  induction h generalizing s with
  | ret ha =>
    simp only [Prog.exec, Except.ok.injEq, Prod.mk.injEq] at hx
    obtain ⟨rfl, rfl⟩ := hx
    exact ⟨ha, rfl, id⟩
  | halt => simp [Prog.exec] at hx
  | enter _ ih => simp only [Prog.exec] at hx; have h1 := ih _ hx; exact h1
  | lock _ ih =>
    simp only [Prog.exec] at hx
    split at hx
    · cases hx
    · have := ih _ hx
      exact ⟨this.1, this.2.1, fun _ => this.2.2 rfl⟩
  | unlock _ ih =>
    simp only [Prog.exec] at hx
    split at hx
    · have := ih _ hx
      exact ⟨this.1, this.2.1, fun _ => this.2.2 rfl⟩
    · cases hx
  | write _ ih => simp only [Prog.exec] at hx; have h1 := ih _ hx; exact h1
  | clear _ ih => simp only [Prog.exec] at hx; have h1 := ih _ hx; exact h1
  | getResults _ _ ih => simp only [Prog.exec] at hx; have h1 := ih _ _ hx; exact h1
  | print _ ih => simp only [Prog.exec] at hx; have h1 := ih _ hx; exact h1
  | now _ ih => simp only [Prog.exec] at hx; have h1 := ih _ _ hx; exact h1
  | abs _ ih => simp only [Prog.exec] at hx; have h1 := ih _ _ hx; exact h1
  | stat _ ih => simp only [Prog.exec] at hx; have h1 := ih _ _ hx; exact h1
  | environ _ ih => simp only [Prog.exec] at hx; have h1 := ih _ _ hx; exact h1
  | cmdRun _ ih => simp only [Prog.exec] at hx; have h1 := ih _ _ hx; exact h1
  | combinedOutput _ ih => simp only [Prog.exec] at hx; have h1 := ih _ _ hx; exact h1

theorem Calm.exec_frame_aux {post : α → Prop} {held : Bool} {p : Prog α}
    (h : Calm false post held p) (host : Host W) (rs : List BuildResult) (s t : App W)
    (ht : t = { s with results := rs }) :
    p.exec host t = (p.exec host s).map (fun r => (r.1, { r.2 with results := rs })) := by
  induction h generalizing s t with
  | ret ha => subst ht; rfl
  | halt => rfl
  | enter _ ih => simp only [Prog.exec]; exact ih _ _ (by subst ht; rfl)
  | lock _ ih =>
    simp only [Prog.exec]
    have hmu : t.mu = s.mu := by subst ht; rfl
    rw [hmu]
    split
    · rfl
    · exact ih _ _ (by subst ht; rfl)
  | unlock _ ih =>
    simp only [Prog.exec]
    have hmu : t.mu = s.mu := by subst ht; rfl
    rw [hmu]
    split
    · exact ih _ _ (by subst ht; rfl)
    · rfl
  | write _ ih => simp only [Prog.exec]; exact ih _ _ (by subst ht; rfl)
  | clear _ ih => simp only [Prog.exec]; exact ih _ _ (by subst ht; rfl)
  | getResults hrd _ ih => cases hrd
  | print _ ih => simp only [Prog.exec]; exact ih _ _ (by subst ht; rfl)
  | now _ ih =>
    simp only [Prog.exec]
    have hw : t.world = s.world := by subst ht; rfl
    rw [hw]; exact ih _ _ _ (by subst ht; rfl)
  | abs _ ih =>
    simp only [Prog.exec]
    have hw : t.world = s.world := by subst ht; rfl
    rw [hw]; exact ih _ _ _ ht
  | stat _ ih =>
    simp only [Prog.exec]
    have hw : t.world = s.world := by subst ht; rfl
    rw [hw]; exact ih _ _ _ ht
  | environ _ ih =>
    simp only [Prog.exec]
    have hw : t.world = s.world := by subst ht; rfl
    rw [hw]; exact ih _ _ _ ht
  | cmdRun _ ih =>
    simp only [Prog.exec]
    have hw : t.world = s.world := by subst ht; rfl
    rw [hw]; exact ih _ _ _ (by subst ht; rfl)
  | combinedOutput _ ih =>
    simp only [Prog.exec]
    have hw : t.world = s.world := by subst ht; rfl
    rw [hw]; exact ih _ _ _ (by subst ht; rfl)

/-- A calm program that does not read the results list runs the same whatever
that list holds. -/
theorem Calm.exec_frame {post : α → Prop} {held : Bool} {p : Prog α}
    (h : Calm false post held p) (host : Host W) (s : App W) (rs : List BuildResult) :
    p.exec host { s with results := rs } =
      (p.exec host s).map (fun r => (r.1, { r.2 with results := rs })) :=
  h.exec_frame_aux host rs s _ rfl

theorem calm_log (rd : Bool) (t : GoString) : Calm rd (fun _ : Unit => True) false (log t) :=
  .lock (.write (.unlock (.ret trivial)))

theorem calm_since (rd : Bool) (start : Int) : Calm rd (fun _ : Int => True) false (since start) :=
  .now (fun _ => .ret trivial)

theorem calm_commandOfParts (rd : Bool) (parts : List GoString) :
    Calm rd (fun _ : Cmd => True) false (commandOfParts parts) := by
  cases parts with
  | nil => exact .halt
  | cons a rest => exact .ret trivial

theorem calm_executeCommand (rd : Bool) (plat : Platform) (cmdStr : GoString) (proj : Project) :
    Calm rd (fun _ : GoString × Option GoString => True) false
      (executeCommand plat cmdStr proj) := by
  unfold executeCommand
  refine Calm.bind (P := fun _ => True) (.abs (fun _ => .ret trivial)) (fun absPath _ => ?_)
  have hrest : ∀ cmd : Cmd, Calm rd (fun _ : GoString × Option GoString => True) false
      (do
        let environ ← Prog.environ Prog.ret
        let cmd : Cmd := { cmd with Dir := absPath, Env := environ ++ envEntries proj.Env }
        let (outputStr, err) ← Prog.combinedOutput cmd Prog.ret
        let lines := Split newline outputStr
        let displayLines := 10
        if lines.length > displayLines then
          log (Join (lines.drop (lines.length - displayLines)) (lit "\n"))
        else
          log outputStr
        return (outputStr, err)) := by
    intro cmd
    refine Calm.bind (P := fun _ => True) (.environ (fun _ => .ret trivial)) (fun environ _ => ?_)
    refine Calm.bind (P := fun _ => True) (.combinedOutput (fun _ => .ret trivial)) (fun r _ => ?_)
    obtain ⟨outputStr, err⟩ := r
    dsimp only
    split
    · exact Calm.bind (calm_log _ _) (fun _ _ => .ret trivial)
    · exact Calm.bind (calm_log _ _) (fun _ _ => .ret trivial)
  dsimp only
  split
  · split
    · exact Calm.bind (calm_commandOfParts _ _) (fun cmd _ => hrest cmd)
    · exact Calm.bind (P := fun _ => True) (.ret trivial) (fun cmd _ => hrest cmd)
  · exact Calm.bind (calm_commandOfParts _ _) (fun cmd _ => hrest cmd)

theorem calm_createCommand (rd : Bool) (name : GoString) (args : List GoString) (dir : GoString)
    (env : List (GoString × GoString)) :
    Calm rd (fun _ : Cmd => True) false (createCommand name args dir env) :=
  Calm.bind (P := fun _ => True) (.environ (fun _ => .ret trivial)) (fun _ _ => .ret trivial)

theorem calm_gitPull (rd : Bool) (plat : Platform) (proj : Project) :
    Calm rd (fun _ : Option GoString => True) false (gitPull plat proj) := by
  unfold gitPull
  refine Calm.bind (P := fun _ => True) (.abs (fun _ => .ret trivial)) (fun absPath _ => ?_)
  refine Calm.bind (P := fun _ => True) (.stat (fun _ => .ret trivial)) (fun missing _ => ?_)
  have hpull : Calm rd (fun _ : Option GoString => True) false
      (do
        let cmd ← createCommand (lit "git") [lit "pull"] absPath proj.Env
        let (output, err) ← Prog.combinedOutput cmd Prog.ret
        match err with
        | some e => return some (lit "git pull 失败: " ++ e)
        | none =>
          log (lit "[blue]Git: " ++ TrimSpace output ++ lit "[-]")
          return none) := by
    refine Calm.bind (calm_createCommand _ _ _ _ _) (fun cmd _ => ?_)
    refine Calm.bind (P := fun _ => True) (.combinedOutput (fun _ => .ret trivial))
      (fun r _ => ?_)
    obtain ⟨output, err⟩ := r
    cases err with
    | some e => exact .ret trivial
    | none => exact Calm.bind (calm_log _ _) (fun _ _ => .ret trivial)
  have hafter : ∀ switched : Option GoString, Calm rd (fun _ : Option GoString => True) false
      (match switched with
       | some err => pure (some err)
       | none =>
         if proj.Git.Reset = true then do
           let cmd ← createCommand (lit "git") [lit "reset", lit "--hard", lit "HEAD"] absPath proj.Env
           let _ ← Prog.cmdRun cmd Prog.ret
           let cmd ← createCommand (lit "git") [lit "pull"] absPath proj.Env
           let (output, err) ← Prog.combinedOutput cmd Prog.ret
           match err with
           | some e => return some (lit "git pull 失败: " ++ e)
           | none =>
             log (lit "[blue]Git: " ++ TrimSpace output ++ lit "[-]")
             return none
         else do
           let cmd ← createCommand (lit "git") [lit "pull"] absPath proj.Env
           let (output, err) ← Prog.combinedOutput cmd Prog.ret
           match err with
           | some e => return some (lit "git pull 失败: " ++ e)
           | none =>
             log (lit "[blue]Git: " ++ TrimSpace output ++ lit "[-]")
             return none) := by
    intro switched
    cases switched with
    | some err => exact .ret trivial
    | none =>
      dsimp only
      split
      · refine Calm.bind (calm_createCommand _ _ _ _ _) (fun cmd _ => ?_)
        exact Calm.bind (P := fun _ => True) (.cmdRun (fun _ => .ret trivial))
          (fun _ _ => hpull)
      · exact hpull
  split
  · exact Calm.bind (calm_log _ _) (fun _ _ => .ret trivial)
  · dsimp only
    split
    · refine Calm.bind (calm_createCommand _ _ _ _ _) (fun cmd _ => ?_)
      refine Calm.bind (P := fun _ => True) (.cmdRun (fun _ => .ret trivial)) (fun e _ => ?_)
      cases e with
      | some err => exact hafter (some _)
      | none => exact Calm.bind (calm_log _ _) (fun _ _ => hafter none)
    · exact hafter none

theorem calm_refresh (rd : Bool) (plat : Platform) (proj : Project) :
    Calm rd (fun _ : Option GoString => True) false (refresh plat proj) := by
  unfold refresh
  split
  · exact calm_gitPull _ _ _
  · exact .ret trivial

theorem calm_beginProject (rd : Bool) (plat : Platform) (proj : Project) :
    Calm rd (fun _ : Int × Option GoString => True) false (beginProject plat proj) := by
  unfold beginProject
  refine Calm.bind (P := fun _ => True) (.now (fun _ => .ret trivial)) (fun start _ => ?_)
  refine Calm.bind (P := fun _ => True) (.enter (.ret trivial)) (fun _ _ => ?_)
  refine Calm.bind (calm_log _ _) (fun _ _ => ?_)
  exact Calm.bind (calm_refresh _ _ _) (fun _ _ => .ret trivial)

theorem calm_buildCommands (rd : Bool) (plat : Platform) (proj : Project) (start : Int)
    (cmds : List GoString) (result : BuildResult) (hname : result.Project = proj.Name) :
    Calm rd (fun r : BuildResult => r.Project = proj.Name) false
      (buildCommands plat proj start cmds result) := by
  induction cmds generalizing result with
  | nil =>
    unfold buildCommands
    refine Calm.bind (calm_since _ _) (fun d _ => ?_)
    exact Calm.bind (calm_log _ _) (fun _ _ => .ret hname)
  | cons cmd rest ih =>
    unfold buildCommands
    refine Calm.bind (calm_log _ _) (fun _ _ => ?_)
    refine Calm.bind (calm_executeCommand _ _ _ _) (fun r _ => ?_)
    obtain ⟨output, err⟩ := r
    cases err with
    | some e =>
      refine Calm.bind (calm_log _ _) (fun _ _ => ?_)
      exact Calm.bind (calm_since _ _) (fun d _ => .ret hname)
    | none => exact ih _ hname

theorem calm_buildProject (rd : Bool) (plat : Platform) (proj : Project) :
    Calm rd (fun r : BuildResult => r.Project = proj.Name) false (buildProject plat proj) := by
  unfold buildProject
  refine Calm.bind (calm_beginProject _ _ _) (fun x _ => ?_)
  obtain ⟨start, gitErr⟩ := x
  cases gitErr with
  | some err =>
    refine Calm.bind (calm_log _ _) (fun _ _ => ?_)
    exact Calm.bind (calm_since _ _) (fun d _ => .ret rfl)
  | none => exact calm_buildCommands _ _ _ _ _ _ rfl

theorem calm_buildEach (rd : Bool) (plat : Platform) (ps : List Project) :
    Calm rd (fun rs : List BuildResult => rs.map (fun r => r.Project) = ps.map (fun p => p.Name))
      false (buildEach plat ps) := by
  induction ps with
  | nil => exact .ret rfl
  | cons p rest ih =>
    unfold buildEach
    refine Calm.bind (calm_buildProject _ _ _) (fun r hr => ?_)
    refine Calm.bind ih (fun rs hrs => ?_)
    exact .ret (by simp [hr, hrs])

theorem calm_runEach (rd : Bool) (plat : Platform) (proj : Project) (cmds : List GoString) :
    Calm rd (fun rs : List (GoString × Option GoString) => rs.length = cmds.length) false
      (runEach plat proj cmds) := by
  induction cmds with
  | nil => exact .ret rfl
  | cons c rest ih =>
    unfold runEach
    refine Calm.bind (calm_log _ _) (fun _ _ => ?_)
    refine Calm.bind (calm_executeCommand _ _ _ _) (fun r _ => ?_)
    refine Calm.bind ih (fun rs hrs => ?_)
    exact .ret (by simp [hrs])

/-! ## The project builder -/

theorem exec_log_ok {host : Host W} {t : GoString} {s s1 : App W} {u : Unit}
    (h : (log t).exec host s = .ok (u, s1)) :
    s.mu = false ∧ s1 = { s with textView := s.textView ++ [t ++ lit "\n"] } := by
  rcases Bool.eq_false_or_eq_true s.mu with hmu | hmu
  · simp [log, Prog.exec, hmu] at h
  · rw [exec_log host t s hmu] at h
    simp only [Except.ok.injEq, Prod.mk.injEq] at h
    exact ⟨hmu, h.2.symm⟩

theorem exec_since (host : Host W) (start : Int) (s : App W) :
    (since start).exec host s =
      .ok ((host.clock s.world).1 - start, { s with world := (host.clock s.world).2 }) := rfl

theorem buildCommands_nil (plat : Platform) (proj : Project) (start : Int) (result : BuildResult) :
    buildCommands plat proj start [] result = (do
      let d ← since start
      let result := { result with Success := true, Duration := d }
      log (lit "[green]✓ " ++ proj.Name ++ lit " 构建成功 (耗时: " ++ plat.durationString d
        ++ lit ")[-]")
      return result) := rfl

theorem buildCommands_cons (plat : Platform) (proj : Project) (start : Int) (cmd : GoString)
    (rest : List GoString) (result : BuildResult) :
    buildCommands plat proj start (cmd :: rest) result = (do
      log (lit "[yellow]$ " ++ cmd ++ lit "[-]")
      let (output, err) ← executeCommand plat cmd proj
      let result := { result with Output := result.Output ++ output }
      match err with
      | some e =>
        let result := { result with Success := false, Error := e }
        log (lit "[red]✗ 命令执行失败: " ++ e ++ lit "[-]")
        let d ← since start
        return { result with Duration := d }
      | none => buildCommands plat proj start rest result) := rfl

/-- The command loop of `buildProject` after a run of commands without error:
it goes on with the remaining commands, the outputs appended. -/
theorem exec_buildCommands_append (host : Host W) (plat : Platform) (proj : Project) (start : Int)
    (pre rest : List GoString) (result : BuildResult) (s1 s2 : App W)
    (outs : List (GoString × Option GoString))
    (hpre : (runEach plat proj pre).exec host s1 = .ok (outs, s2))
    (hok : ∀ x ∈ outs, x.2 = none) :
    (buildCommands plat proj start (pre ++ rest) result).exec host s1 =
      (buildCommands plat proj start rest
        { result with Output := result.Output ++ (outs.map Prod.fst).flatten }).exec host s2 := by
  induction pre generalizing result s1 outs with
  | nil =>
    simp only [runEach, exec_pure, Except.ok.injEq, Prod.mk.injEq] at hpre
    obtain ⟨rfl, rfl⟩ := hpre
    simp
  | cons c pre1 ih =>
    unfold runEach at hpre
    obtain ⟨u, sa, hlog, h1⟩ := exec_bind_ok hpre
    obtain ⟨r, sb, hcmd, h2⟩ := exec_bind_ok h1
    obtain ⟨rs, sc, hrest, h3⟩ := exec_bind_ok h2
    simp only [exec_pure, Except.ok.injEq, Prod.mk.injEq] at h3
    obtain ⟨rfl, rfl⟩ := h3
    obtain ⟨output, err⟩ := r
    have herr : err = none := hok (output, err) (List.mem_cons_self _ _)
    subst herr
    have hok1 : ∀ x ∈ rs, x.2 = none := fun x hx => hok x (List.mem_cons_of_mem _ hx)
    rw [List.cons_append, buildCommands_cons]
    rw [exec_bind_of_ok hlog, exec_bind_of_ok hcmd]
    simp only []
    rw [ih _ _ _ hrest hok1]
    simp [List.append_assoc]

theorem beginProject_mu {host : Host W} {plat : Platform} {proj : Project} {s s1 : App W}
    {x : Int × Option GoString} (h : (beginProject plat proj).exec host s = .ok (x, s1)) :
    s1.mu = false := by
  unfold beginProject at h
  obtain ⟨t, sa, _, h1⟩ := exec_bind_ok h
  obtain ⟨u, sb, _, h2⟩ := exec_bind_ok h1
  obtain ⟨v, sc, hlog, h3⟩ := exec_bind_ok h2
  obtain ⟨g, sd, href, h4⟩ := exec_bind_ok h3
  simp only [exec_pure, Except.ok.injEq, Prod.mk.injEq] at h4
  obtain ⟨_, rfl⟩ := h4
  exact ((calm_refresh false plat proj).exec_post host _ _ _ href).2.2 (by
    rw [(exec_log_ok hlog).2]; exact (exec_log_ok hlog).1)

/-- Claim C3.  Let the start of `buildProject` (timer, announcement, refresh
step) return without a refresh error.  If the commands before command `c` run
without error with outputs `outs`, and `c` then returns output `o` and error
`e`, then `buildProject` returns the result with `Success = false`, `Error = e`
and `Output` the outputs of the commands up to and including `c`, concatenated
in order, and nothing is launched after `c` returned (the history is the one at
that moment).  If all commands run without error, `buildProject` returns the
result with `Success = true`, empty `Error` and `Output` all outputs
concatenated in order. -/
theorem buildProject_fail_fast (host : Host W) (plat : Platform) (proj : Project)
    (s s1 : App W) (start : Int)
    (hbegin : (beginProject plat proj).exec host s = .ok ((start, none), s1)) :
    (∀ (pre : List GoString) (c : GoString) (post : List GoString)
        (outs : List (GoString × Option GoString)) (o e : GoString) (s2 s3 : App W),
        proj.Build.Commands = pre ++ c :: post →
        (runEach plat proj pre).exec host s1 = .ok (outs, s2) →
        (∀ x ∈ outs, x.2 = none) →
        (runEach plat proj [c]).exec host s2 = .ok ([(o, some e)], s3) →
        ∃ sf, (buildProject plat proj).exec host s =
            .ok ({ Project := proj.Name, Success := false,
                   Output := (outs.map Prod.fst).flatten ++ o, Error := e,
                   Duration := (host.clock s3.world).1 - start }, sf) ∧
          sf.history = s3.history) ∧
    (∀ (outs : List (GoString × Option GoString)) (s2 : App W),
        (runEach plat proj proj.Build.Commands).exec host s1 = .ok (outs, s2) →
        (∀ x ∈ outs, x.2 = none) →
        ∃ sf, (buildProject plat proj).exec host s =
            .ok ({ Project := proj.Name, Success := true,
                   Output := (outs.map Prod.fst).flatten, Error := [],
                   Duration := (host.clock s2.world).1 - start }, sf) ∧
          sf.history = s2.history) := by
  have hbp : (buildProject plat proj).exec host s =
      (buildCommands plat proj start proj.Build.Commands { Project := proj.Name }).exec host s1 := by
    unfold buildProject
    rw [exec_bind_of_ok hbegin]
  constructor
  · intro pre c post outs o e s2 s3 hcmds hpre hok hc
    rw [hbp, hcmds, exec_buildCommands_append host plat proj start pre (c :: post) _ s1 s2 outs hpre hok]
    unfold runEach at hc
    obtain ⟨u, sa, hlog, h1⟩ := exec_bind_ok hc
    obtain ⟨r, sb, hcmd, h2⟩ := exec_bind_ok h1
    simp only [runEach, exec_bind, exec_pure, Except.ok.injEq, Prod.mk.injEq,
      List.cons.injEq, and_true] at h2
    obtain ⟨rfl, rfl⟩ := h2
    have hmu3 : sb.mu = false :=
      ((calm_executeCommand false plat c proj).exec_post host _ _ _ hcmd).2.2 (by
        rw [(exec_log_ok hlog).2]; exact (exec_log_ok hlog).1)
    rw [buildCommands_cons]
    rw [exec_bind_of_ok hlog, exec_bind_of_ok hcmd]
    simp only []
    rw [exec_bind, exec_log host _ _ hmu3]
    simp only []
    rw [exec_bind, exec_since]
    exact ⟨_, rfl, rfl⟩
  · intro outs s2 hrun hok
    have happ := exec_buildCommands_append host plat proj start proj.Build.Commands []
      { Project := proj.Name } s1 s2 outs hrun hok
    rw [List.append_nil] at happ
    rw [hbp, happ]
    have hmu1 : s1.mu = false := beginProject_mu hbegin
    have hmu2 : s2.mu = false :=
      ((calm_runEach false plat proj _).exec_post host _ _ _ hrun).2.2 hmu1
    rw [buildCommands_nil]
    rw [exec_bind, exec_since]
    simp only []
    rw [exec_bind, exec_log host _ _ (by simpa using hmu2)]
    exact ⟨_, rfl, rfl⟩

/-- Witness of `buildProject_fail_fast`: the project `svc-a` with the commands
`echo A1` and `false` (first half), the project `svc-b` with the command
`echo B1` (second half), on the example host. -/
theorem buildProject_fail_fast_witness :
    (∃ sf, (buildProject exampleLinux exampleSvcA).exec exampleHost exampleApp =
        .ok ({ Project := lit "svc-a", Success := false, Output := lit "A1\n",
               Error := lit "exit status 1", Duration := 3 }, sf) ∧
      sf.history =
        [Event.build (lit "svc-a"),
         Event.launch { Path := lit "echo", Args := [lit "echo", lit "A1"], Dir := lit "/work/a", Env := [] },
         Event.launch { Path := lit "false", Args := [lit "false"], Dir := lit "/work/a", Env := [] }]) ∧
    (∃ sf, (buildProject exampleLinux exampleSvcB).exec exampleHost exampleApp =
        .ok ({ Project := lit "svc-b", Success := true, Output := lit "B1\n",
               Error := [], Duration := 2 }, sf) ∧
      sf.history =
        [Event.build (lit "svc-b"),
         Event.launch { Path := lit "echo", Args := [lit "echo", lit "B1"], Dir := lit "/work/b", Env := [] }]) :=
  ⟨(buildProject_fail_fast exampleHost exampleLinux exampleSvcA exampleApp _ _ rfl).1
      [lit "echo A1"] (lit "false") [] [(lit "A1\n", none)] [] (lit "exit status 1") _ _ rfl rfl
      (by decide) rfl,
   (buildProject_fail_fast exampleHost exampleLinux exampleSvcB exampleApp _ _ rfl).2
      [(lit "B1\n", none)] _ rfl (by decide)⟩

/-! ## The sequential scheduler -/

theorem exec_appendResult (host : Host W) (r : BuildResult) (s : App W) (hmu : s.mu = false) :
    (appendResult r).exec host s = .ok ((), { s with results := s.results ++ [r] }) := by
  cases s
  simp only at hmu
  subst hmu
  rfl

theorem sequentialLoop_cons (plat : Platform) (cfg : Config) (proj : Project)
    (rest : List Project) :
    sequentialLoop plat cfg (proj :: rest) = (do
      let result ← buildProject plat proj
      appendResult result
      if !result.Success && cfg.Global.StopOnError then
        log (lit "[red]构建失败,停止后续构建[-]")
      else
        sequentialLoop plat cfg rest) := rfl

theorem buildEach_cons (plat : Platform) (proj : Project) (rest : List Project) :
    buildEach plat (proj :: rest) = (do
      let r ← buildProject plat proj
      let rs ← buildEach plat rest
      pure (r :: rs)) := rfl

/-- The loop of `buildSequential` over projects whose builds do not stop it:
it goes on with the remaining projects, the outcomes appended to the results. -/
theorem exec_sequentialLoop_append (host : Host W) (plat : Platform) (cfg : Config)
    (pre rest : List Project) (s s2 : App W) (outs : List BuildResult)
    (hmu : s.mu = false)
    (hpre : (buildEach plat pre).exec host s = .ok (outs, s2))
    (hgo : ∀ r ∈ outs, (!r.Success && cfg.Global.StopOnError) = false) :
    (sequentialLoop plat cfg (pre ++ rest)).exec host s =
      (sequentialLoop plat cfg rest).exec host { s2 with results := s.results ++ outs } := by
  induction pre generalizing s s2 outs with
  | nil =>
    simp only [buildEach, exec_pure, Except.ok.injEq, Prod.mk.injEq] at hpre
    obtain ⟨rfl, rfl⟩ := hpre
    simp
  | cons p pre1 ih =>
    rw [buildEach_cons] at hpre
    obtain ⟨r, sa, hb, h1⟩ := exec_bind_ok hpre
    obtain ⟨rs, sb, hrest, h2⟩ := exec_bind_ok h1
    simp only [exec_pure, Except.ok.injEq, Prod.mk.injEq] at h2
    obtain ⟨rfl, rfl⟩ := h2
    have hpost := (calm_buildProject false plat p).exec_post host _ _ _ hb
    have hmua : sa.mu = false := hpost.2.2 hmu
    have hgo1 : ∀ x ∈ rs, (!x.Success && cfg.Global.StopOnError) = false :=
      fun x hx => hgo x (List.mem_cons_of_mem _ hx)
    have hr : (!r.Success && cfg.Global.StopOnError) = false := hgo r (List.mem_cons_self _ _)
    rw [List.cons_append, sequentialLoop_cons, exec_bind_of_ok hb, exec_bind,
      exec_appendResult host r sa hmua]
    simp only [hr, Bool.false_eq_true, if_false]
    have hframe := (calm_buildEach false plat pre1).exec_frame host sa (sa.results ++ [r])
    rw [hrest] at hframe
    rw [ih _ _ _ (by simpa using hmua) hframe hgo1]
    simp [hpost.2.1, List.append_assoc]

theorem exec_startBuild_sequential {host : Host W} {cfg : Config} {l : ListView} {a a1 : App W}
    {ps : List Project}
    (h : (startBuild cfg l).exec host a = .ok (Launch.sequential ps, a1)) :
    ps = selectedProjects cfg l ∧ ps ≠ [] ∧ cfg.Global.Parallel = false ∧
      a1.results = [] ∧ a1.mu = false := by
  unfold startBuild at h
  dsimp only at h
  split at h
  · obtain ⟨u, sa, _, h1⟩ := exec_bind_ok h
    simp at h1
  · rename_i hne
    obtain ⟨u, sa, hclear, h1⟩ := exec_bind_ok h
    obtain ⟨v, sb, hlog, h2⟩ := exec_bind_ok h1
    obtain ⟨w, sc, hset, h3⟩ := exec_bind_ok h2
    simp only [Prog.exec, Except.ok.injEq, Prod.mk.injEq, true_and] at hset
    have hmub := (exec_log_ok hlog)
    split at h3
    · simp at h3
    · rename_i hpar
      simp only [exec_pure, Except.ok.injEq, Prod.mk.injEq, Launch.sequential.injEq] at h3
      obtain ⟨rfl, rfl⟩ := h3
      refine ⟨rfl, ?_, by simpa using hpar, ?_, ?_⟩
      · intro h0; exact hne (by rw [h0]; rfl)
      · rw [← hset]
      · rw [← hset, hmub.2]; exact hmub.1

theorem exec_showSummary_ok (host : Host W) (plat : Platform) (s : App W) (hmu : s.mu = false) :
    ∃ s1, (showSummary plat).exec host s = .ok ((), s1) ∧ s1.results = s.results ∧
      s1.history = s.history ∧ s1.world = s.world :=
  ⟨_, exec_showSummary host plat s hmu, rfl, rfl, rfl⟩

/-- Claim C1.  Sequential mode with stop on error, from the state `a1` in which
`startBuild` starts the goroutine of `buildSequential` for the selected projects
`pre ++ p :: post`.  If the builds of the projects `pre` return the outcomes
`outs`, all with `Success = true`, and the build of `p` then returns `r` with
`Success = false`, then the goroutine runs to its end, the results list is then
`outs ++ [r]`: one entry for each of the first `pre.length + 1` projects, in
their order; and after the build of `p` returned no build is entered and no
process launched (history and world are those of that moment). -/
theorem buildSequential_stops_at_first_failure (host : Host W) (plat : Platform)
    (a a1 a2 a3 : App W) (pre post : List Project) (p : Project)
    (outs : List BuildResult) (r : BuildResult)
    (hstart : (startBuild a.config a.list).exec host a =
      .ok (Launch.sequential (pre ++ p :: post), a1))
    (hstop : a.config.Global.StopOnError = true)
    (hpre : (buildEach plat pre).exec host a1 = .ok (outs, a2))
    (hok : ∀ x ∈ outs, x.Success = true)
    (hp : (buildProject plat p).exec host a2 = .ok (r, a3))
    (hfail : r.Success = false) :
    ∃ a4, (buildSequential plat a.config (pre ++ p :: post)).exec host a1 = .ok ((), a4) ∧
      a4.results = outs ++ [r] ∧
      a4.results.length = pre.length + 1 ∧
      a4.results.map (fun x => x.Project) = (pre ++ [p]).map (fun x => x.Name) ∧
      a4.history = a3.history ∧ a4.world = a3.world := by
  obtain ⟨_, _, _, hres1, hmu1⟩ := exec_startBuild_sequential hstart
  have hgo : ∀ x ∈ outs, (!x.Success && a.config.Global.StopOnError) = false := by
    intro x hx; simp [hok x hx]
  have hpostE := (calm_buildEach false plat pre).exec_post host _ _ _ hpre
  have hmu2 : a2.mu = false := hpostE.2.2 hmu1
  have hpostP := (calm_buildProject false plat p).exec_post host _ _ _ hp
  have hframe := (calm_buildProject false plat p).exec_frame host a2 (a1.results ++ outs)
  rw [hp] at hframe
  have hloop : (sequentialLoop plat a.config (pre ++ p :: post)).exec host a1 =
      .ok ((), { a3 with results := outs ++ [r],
                         textView := a3.textView ++ [lit "[red]构建失败,停止后续构建[-]" ++ lit "\n"] }) := by
    rw [exec_sequentialLoop_append host plat a.config pre (p :: post) a1 a2 outs hmu1 hpre hgo,
      sequentialLoop_cons, exec_bind_of_ok hframe, exec_bind,
      exec_appendResult host r _ (by simpa using hpostP.2.2 hmu2)]
    simp only [hfail, hstop, Bool.not_false, Bool.and_self, if_true]
    rw [exec_log host _ _ (by simpa using hpostP.2.2 hmu2)]
    simp [hres1]
  obtain ⟨a4, hsum, hr4, hh4, hw4⟩ := exec_showSummary_ok host plat
    { a3 with results := outs ++ [r],
              textView := a3.textView ++ [lit "[red]构建失败,停止后续构建[-]" ++ lit "\n"] }
    (hpostP.2.2 hmu2)
  refine ⟨a4, ?_, hr4, ?_, ?_, hh4, hw4⟩
  · unfold buildSequential
    rw [exec_bind_of_ok hloop]
    exact hsum
  · rw [hr4]
    have := congrArg List.length hpostE.1
    simp at this
    simp [this]
  · rw [hr4]
    simp [hpostE.1, hpostP.1]

/-- Witness of `buildSequential_stops_at_first_failure`: `svc-b` succeeds, `svc-a`
fails, `svc-c` is never built; a result of an earlier run is gone. -/
theorem buildSequential_stops_at_first_failure_witness :
    ∃ a1, (startBuild exampleStopConfig (exampleAppOf exampleStopConfig).list).exec exampleHost
        (exampleAppOf exampleStopConfig) =
        .ok (Launch.sequential ([exampleSvcB] ++ exampleSvcA :: [exampleSvcC]), a1) ∧
      ∃ a4, (buildSequential exampleLinux exampleStopConfig
          ([exampleSvcB] ++ exampleSvcA :: [exampleSvcC])).exec exampleHost a1 = .ok ((), a4) ∧
        a4.results =
          [{ Project := lit "svc-b", Success := true, Output := lit "B1\n", Error := [], Duration := 2 }]
          ++ [{ Project := lit "svc-a", Success := false, Output := lit "A1\n",
                Error := lit "exit status 1", Duration := 3 }] ∧
        a4.results.length = 1 + 1 ∧
        a4.results.map (fun x => x.Project) = [lit "svc-b", lit "svc-a"] ∧
        a4.history =
          [Event.build (lit "svc-b"),
           Event.launch { Path := lit "echo", Args := [lit "echo", lit "B1"], Dir := lit "/work/b", Env := [] },
           Event.build (lit "svc-a"),
           Event.launch { Path := lit "echo", Args := [lit "echo", lit "A1"], Dir := lit "/work/a", Env := [] },
           Event.launch { Path := lit "false", Args := [lit "false"], Dir := lit "/work/a", Env := [] }] ∧
        a4.world = 7 :=
  ⟨_, rfl,
    buildSequential_stops_at_first_failure exampleHost exampleLinux (exampleAppOf exampleStopConfig)
      _ _ _ [exampleSvcB] [exampleSvcC] exampleSvcA _ _ rfl rfl rfl (by decide) rfl rfl⟩

/-! ## Selection state: examples -/

/-- Witness of `selection_idempotent`: the list of the example configuration
with the first and the last item marked. -/
theorem selection_idempotent_witness :
    (∃ l1, selectAll (withMarks (runInteractive exampleStopConfig) [true, false, true]) = .ok l1 ∧
        selectAll l1 = .ok l1) ∧
    ∀ i : Nat, i < (withMarks (runInteractive exampleStopConfig) [true, false, true]).items.length →
      ∃ l1, toggleSelection
          { withMarks (runInteractive exampleStopConfig) [true, false, true] with currentItem := i }
            = .ok l1 ∧
        toggleSelection l1 =
          .ok { withMarks (runInteractive exampleStopConfig) [true, false, true] with
                currentItem := i } :=
  selection_idempotent (withMarks (runInteractive exampleStopConfig) [true, false, true])
    (by decide)

/-- Witness of `startBuild_selects_marked_enabled`: the example configuration
(four projects, one disabled) with the first and the last item marked. -/
theorem startBuild_selects_marked_enabled_witness :
    selectedProjects exampleStopConfig
        (withMarks (runInteractive exampleStopConfig) [true, false, true]) =
      [exampleSvcB, exampleSvcC] :=
  (startBuild_selects_marked_enabled exampleStopConfig [true, false, true] rfl).2.1

/-! ## The parallel scheduler -/

theorem getElem?_split {l : List α} {i : Nat} {t : α} (h : l[i]? = some t) :
    ∃ L R, l = L ++ t :: R ∧ L.length = i ∧ ∀ t1, l.set i t1 = L ++ t1 :: R := by
  induction l generalizing i with
  | nil => simp at h
  | cons a rest ih =>
    cases i with
    | zero =>
      simp only [List.getElem?_cons_zero, Option.some.injEq] at h
      subst h
      exact ⟨[], rest, rfl, rfl, fun _ => rfl⟩
    | succ n =>
      simp only [List.getElem?_cons_succ] at h
      obtain ⟨L, R, h1, h2, h3⟩ := ih h
      refine ⟨a :: L, R, by rw [h1]; rfl, by simp [h2], fun t1 => ?_⟩
      simp [List.set_cons_succ, h3]

theorem buildTask_eq (plat : Platform) (p : Project) :
    buildTask plat p = (buildProject plat p).bind publish := rfl

theorem publish_eq (r : BuildResult) :
    publish r =
      Prog.lock (Prog.getResults (fun rs =>
        Prog.setResults (rs ++ [r]) (Prog.unlock (Prog.ret r)))) := rfl

theorem contribOf_bind_publish (q : Prog BuildResult) : contribOf (q.bind publish) = none := by
  cases q with
  | unlock k => cases k <;> rfl
  | _ => rfl

theorem TaskOk.of_not_holds {rs rs1 : List BuildResult} {t : Task} (h : TaskOk rs t)
    (hh : t.holds = false) : TaskOk rs1 t := by
  cases h with
  | building p q holds hc => exact .building p q holds hc
  | reading p r hr => cases hh
  | writing p r hr => cases hh
  | releasing p r hr => cases hh
  | returned p r e hr => exact .returned p r e hr

/-- One operation of a task goroutine that has not returned: it stands where a
task goroutine can stand, the count of holders of the mutex follows the mutex,
and either the results list and what the task has appended are as before, or the
task held the mutex and has appended its result at the end. -/
theorem task_local (host : Host W) (s s1 : App W) (t : Task) (q : Prog BuildResult)
    (hok : TaskOk s.results t)
    (hstep : t.prog.step host s = some (.ok (q, s1))) :
    TaskOk s1.results { t with prog := q, holds := t.prog.holdsAfter t.holds } ∧
    ((t.prog.holdsAfter t.holds).toNat + (if s.mu then 1 else 0)
        = t.holds.toNat + (if s1.mu then 1 else 0)) ∧
    ((contribOf q = contribOf t.prog ∧ s1.results = s.results) ∨
      (t.holds = true ∧ contribOf t.prog = none ∧
        ∃ r, contribOf q = some r ∧ s1.results = s.results ++ [r])) := by
  cases hok with
  | building p q0 holds hc =>
    cases hc with
    | ret hr =>
      simp only [Prog.bind, publish_eq, Prog.step] at hstep
      split at hstep
      · cases hstep
      · rename_i hmu
        simp only [Option.some.injEq, Except.ok.injEq, Prod.mk.injEq] at hstep
        obtain ⟨rfl, rfl⟩ := hstep
        refine ⟨.reading p _ hr, ?_, .inl ⟨rfl, rfl⟩⟩
        simp [Prog.bind, publish_eq, Prog.holdsAfter, hmu]
    | halt => simp [Prog.bind, Prog.step] at hstep
    | lock hk =>
      simp only [Prog.bind, Prog.step] at hstep
      split at hstep
      · cases hstep
      · rename_i hmu
        simp only [Option.some.injEq, Except.ok.injEq, Prod.mk.injEq] at hstep
        obtain ⟨rfl, rfl⟩ := hstep
        refine ⟨.building p _ true hk, ?_, .inl ⟨?_, rfl⟩⟩
        · simp [Prog.bind, Prog.holdsAfter, hmu]
        · rw [contribOf_bind_publish]; rfl
    | unlock hk =>
      simp only [Prog.bind, Prog.step] at hstep
      split at hstep
      · rename_i hmu
        simp only [Option.some.injEq, Except.ok.injEq, Prod.mk.injEq] at hstep
        obtain ⟨rfl, rfl⟩ := hstep
        refine ⟨.building p _ false hk, ?_, .inl ⟨?_, rfl⟩⟩
        · simp [Prog.bind, Prog.holdsAfter, hmu]
        · rw [contribOf_bind_publish, contribOf_bind_publish]
      · cases hstep
    | getResults hrd => cases hrd
    | enter hk =>
      simp only [Prog.bind, Prog.step, Option.some.injEq, Except.ok.injEq, Prod.mk.injEq] at hstep
      obtain ⟨rfl, rfl⟩ := hstep
      exact ⟨.building p _ holds hk, by simp [Prog.bind, Prog.holdsAfter],
        .inl ⟨by rw [contribOf_bind_publish]; rfl, rfl⟩⟩
    | write hk =>
      simp only [Prog.bind, Prog.step, Option.some.injEq, Except.ok.injEq, Prod.mk.injEq] at hstep
      obtain ⟨rfl, rfl⟩ := hstep
      exact ⟨.building p _ holds hk, by simp [Prog.bind, Prog.holdsAfter],
        .inl ⟨by rw [contribOf_bind_publish]; rfl, rfl⟩⟩
    | clear hk =>
      simp only [Prog.bind, Prog.step, Option.some.injEq, Except.ok.injEq, Prod.mk.injEq] at hstep
      obtain ⟨rfl, rfl⟩ := hstep
      exact ⟨.building p _ holds hk, by simp [Prog.bind, Prog.holdsAfter],
        .inl ⟨by rw [contribOf_bind_publish]; rfl, rfl⟩⟩
    | print hk =>
      simp only [Prog.bind, Prog.step, Option.some.injEq, Except.ok.injEq, Prod.mk.injEq] at hstep
      obtain ⟨rfl, rfl⟩ := hstep
      exact ⟨.building p _ holds hk, by simp [Prog.bind, Prog.holdsAfter],
        .inl ⟨by rw [contribOf_bind_publish]; rfl, rfl⟩⟩
    | now hk =>
      simp only [Prog.bind, Prog.step, Option.some.injEq, Except.ok.injEq, Prod.mk.injEq] at hstep
      obtain ⟨rfl, rfl⟩ := hstep
      exact ⟨.building p _ holds (hk _), by simp [Prog.bind, Prog.holdsAfter],
        .inl ⟨by rw [contribOf_bind_publish]; rfl, rfl⟩⟩
    | abs hk =>
      simp only [Prog.bind, Prog.step, Option.some.injEq, Except.ok.injEq, Prod.mk.injEq] at hstep
      obtain ⟨rfl, rfl⟩ := hstep
      exact ⟨.building p _ holds (hk _), by simp [Prog.bind, Prog.holdsAfter],
        .inl ⟨by rw [contribOf_bind_publish]; rfl, rfl⟩⟩
    | stat hk =>
      simp only [Prog.bind, Prog.step, Option.some.injEq, Except.ok.injEq, Prod.mk.injEq] at hstep
      obtain ⟨rfl, rfl⟩ := hstep
      exact ⟨.building p _ holds (hk _), by simp [Prog.bind, Prog.holdsAfter],
        .inl ⟨by rw [contribOf_bind_publish]; rfl, rfl⟩⟩
    | environ hk =>
      simp only [Prog.bind, Prog.step, Option.some.injEq, Except.ok.injEq, Prod.mk.injEq] at hstep
      obtain ⟨rfl, rfl⟩ := hstep
      exact ⟨.building p _ holds (hk _), by simp [Prog.bind, Prog.holdsAfter],
        .inl ⟨by rw [contribOf_bind_publish]; rfl, rfl⟩⟩
    | cmdRun hk =>
      simp only [Prog.bind, Prog.step, Option.some.injEq, Except.ok.injEq, Prod.mk.injEq] at hstep
      obtain ⟨rfl, rfl⟩ := hstep
      exact ⟨.building p _ holds (hk _), by simp [Prog.bind, Prog.holdsAfter],
        .inl ⟨by rw [contribOf_bind_publish]; rfl, rfl⟩⟩
    | combinedOutput hk =>
      simp only [Prog.bind, Prog.step, Option.some.injEq, Except.ok.injEq, Prod.mk.injEq] at hstep
      obtain ⟨rfl, rfl⟩ := hstep
      exact ⟨.building p _ holds (hk _), by simp [Prog.bind, Prog.holdsAfter],
        .inl ⟨by rw [contribOf_bind_publish]; rfl, rfl⟩⟩
  | reading p r hr =>
    simp only [Prog.step, Option.some.injEq, Except.ok.injEq, Prod.mk.injEq] at hstep
    obtain ⟨rfl, rfl⟩ := hstep
    exact ⟨.writing p r hr, by simp [Prog.holdsAfter], .inl ⟨rfl, rfl⟩⟩
  | writing p r hr =>
    simp only [Prog.step, Option.some.injEq, Except.ok.injEq, Prod.mk.injEq] at hstep
    obtain ⟨rfl, rfl⟩ := hstep
    exact ⟨.releasing p r hr, by simp [Prog.holdsAfter], .inr ⟨rfl, rfl, r, rfl, rfl⟩⟩
  | releasing p r hr =>
    simp only [Prog.step] at hstep
    split at hstep
    · rename_i hmu
      simp only [Option.some.injEq, Except.ok.injEq, Prod.mk.injEq] at hstep
      obtain ⟨rfl, rfl⟩ := hstep
      exact ⟨.returned p r false hr, by simp [Prog.holdsAfter, hmu], .inl ⟨rfl, rfl⟩⟩
    · cases hstep
  | returned p r e hr => simp [Prog.step] at hstep

theorem countP_zero_of_add {L R : List Task} {n : Nat}
    (h : L.countP (fun t => t.holds) + (1 + R.countP (fun t => t.holds)) = n) (hn : n ≤ 1) :
    (∀ x ∈ L, x.holds = false) ∧ (∀ x ∈ R, x.holds = false) := by
  have hL : L.countP (fun t => t.holds) = 0 := by omega
  have hR : R.countP (fun t => t.holds) = 0 := by omega
  rw [List.countP_eq_zero] at hL hR
  exact ⟨fun x hx => by simpa using hL x hx, fun x hx => by simpa using hR x hx⟩

/-- The invariant after a step of one task goroutine, from what the step does to
that task and to the application. -/
theorem Core.update {ps pending : List Project} {extra : Nat} {m : Par W}
    (hc : Core ps m pending extra) (L R : List Task) (t t1 : Task) (s1 : App W)
    (hsplit : m.tasks = L ++ t :: R)
    (hp : t1.p = t.p) (hexit : t1.exited = t.exited)
    (hok : TaskOk s1.results t1)
    (hhold : t1.holds.toNat + (if m.app.mu then 1 else 0)
      = t.holds.toNat + (if s1.mu then 1 else 0))
    (hres : (contribOf t1.prog = contribOf t.prog ∧ s1.results = m.app.results) ∨
      (t.holds = true ∧ contribOf t.prog = none ∧
        ∃ r, contribOf t1.prog = some r ∧ s1.results = m.app.results ++ [r]))
    (m1 : Par W) (happ : m1.app = s1) (htasks : m1.tasks = L ++ t1 :: R) (hwg : m1.wg = m.wg) :
    Core ps m1 pending extra := by
  have hholders := hc.holders
  rw [hsplit] at hholders
  simp only [List.countP_append, List.countP_cons] at hholders
  have hOthers : (contribOf t1.prog = contribOf t.prog ∧ s1.results = m.app.results) ∨
      ((∀ x ∈ L, x.holds = false) ∧ (∀ x ∈ R, x.holds = false)) := by
    rcases hres with h | ⟨hh, _, _⟩
    · exact .inl h
    · right
      rw [hh] at hholders
      simp only [if_true] at hholders
      refine countP_zero_of_add (n := if m.app.mu = true then 1 else 0) ?_ ?_
      · omega
      · split <;> omega
  constructor
  · intro x hx
    rw [htasks] at hx
    rw [happ]
    rcases List.mem_append.1 hx with hxL | hxR
    · have hx0 : TaskOk m.app.results x := hc.ok x (by rw [hsplit]; simp [hxL])
      rcases hOthers with h | h
      · rw [h.2]; exact hx0
      · exact hx0.of_not_holds (h.1 x hxL)
    · rcases List.mem_cons.1 hxR with rfl | hxR
      · exact hok
      · have hx0 : TaskOk m.app.results x := hc.ok x (by rw [hsplit]; simp [hxR])
        rcases hOthers with h | h
        · rw [h.2]; exact hx0
        · exact hx0.of_not_holds (h.2 x hxR)
  · rw [htasks, happ]
    simp only [List.countP_append, List.countP_cons]
    have e1 : (if t1.holds = true then 1 else 0) = t1.holds.toNat := by cases t1.holds <;> rfl
    have e2 : (if t.holds = true then 1 else 0) = t.holds.toNat := by cases t.holds <;> rfl
    rw [e1]
    rw [e2] at hholders
    omega
  · rw [htasks, happ]
    have hperm := hc.perm
    rw [hsplit] at hperm
    simp only [List.filterMap_append, List.filterMap_cons] at hperm ⊢
    rcases hres with ⟨h1, h2⟩ | ⟨_, h1, r, h2, h3⟩
    · rw [h1, h2]; exact hperm
    · rw [h1] at hperm
      rw [h2, h3]
      simp only at hperm ⊢
      exact (hperm.append_right [r]).trans (by
        rw [List.append_assoc]
        exact List.Perm.append_left _ (List.perm_append_comm.trans (by simp)))
  · rw [hwg, hc.wg, htasks, hsplit]
    simp only [List.countP_append, List.countP_cons, hexit]
  · rw [hc.projs, htasks, hsplit]
    simp [hp]

theorem Core.halted {ps pending : List Project} {extra : Nat} {m : Par W}
    (hc : Core ps m pending extra) (h : Option Halt) :
    Core ps { m with halted := h } pending extra :=
  ⟨hc.ok, hc.holders, hc.perm, hc.wg, hc.projs⟩

/-- A step of a task goroutine keeps the invariant of the time before
`wg.Wait()` returns. -/
theorem Core.stepTask {ps pending : List Project} {extra : Nat} {m m1 : Par W} (host : Host W)
    (i : Nat) (hc : Core ps m pending extra) (hstep : Par.stepTask host i m = some m1) :
    Core ps m1 pending extra ∧ m1.main = m.main := by
  unfold Par.stepTask at hstep
  rcases hget : m.tasks[i]? with _ | t
  · rw [hget] at hstep; cases hstep
  · rw [hget] at hstep
    obtain ⟨L, R, hsplit, -, hset⟩ := getElem?_split hget
    have hokt : TaskOk m.app.results t := hc.ok t (by rw [hsplit]; simp)
    simp only at hstep
    split at hstep
    · cases hstep
    · rename_i hex
      have hex : t.exited = false := by simpa using hex
      split at hstep
      · -- the deferred wg.Done()
        rename_i r hprog
        split at hstep
        · simp only [Option.some.injEq] at hstep
          subst hstep
          exact ⟨hc.halted _, rfl⟩
        · rename_i hwg0
          simp only [Option.some.injEq] at hstep
          subst hstep
          refine ⟨?_, rfl⟩
          have hwg := hc.wg
          rw [hsplit] at hwg
          simp only [List.countP_append, List.countP_cons, hex, Bool.not_false, if_true] at hwg
          constructor
          · intro x hx
            simp only [hset] at hx
            rcases List.mem_append.1 hx with hxL | hxR
            · exact hc.ok x (by rw [hsplit]; simp [hxL])
            · rcases List.mem_cons.1 hxR with rfl | hxR
              · cases hokt with
                | building p q holds hcq => simp at hprog; cases q <;> simp [Prog.bind, publish_eq] at hprog
                | reading p r hr => cases hprog
                | writing p r hr => cases hprog
                | releasing p r hr => cases hprog
                | returned p r e hr => exact .returned p r true hr
              · exact hc.ok x (by rw [hsplit]; simp [hxR])
          · have := hc.holders
            rw [hsplit] at this
            simpa [hset, List.countP_append, List.countP_cons] using this
          · have := hc.perm
            rw [hsplit] at this
            simpa [hset, List.filterMap_append, List.filterMap_cons] using this
          · simp only [hset, List.countP_append, List.countP_cons, Bool.not_true,
              Bool.false_eq_true, if_false]
            omega
          · show ps = (m.tasks.set i _).map _ ++ pending
            rw [hset, hc.projs, hsplit]; simp
      · rename_i hnotret
        rcases hs : t.prog.step host m.app with _ | (h | ⟨q, s1⟩)
        · rw [hs] at hstep; cases hstep
        · rw [hs] at hstep
          simp only [Option.some.injEq] at hstep
          subst hstep
          exact ⟨hc.halted _, rfl⟩
        · rw [hs] at hstep
          simp only [Option.some.injEq] at hstep
          subst hstep
          obtain ⟨h1, h2, h3⟩ := task_local host m.app s1 t q hokt hs
          exact ⟨hc.update L R t { t with prog := q, holds := t.prog.holdsAfter t.holds } s1
            hsplit rfl rfl h1 h2 h3 _ rfl (hset _) rfl, rfl⟩

theorem calm_summaryLoop (plat : Platform) (rs : List BuildResult) (success failed : Nat) :
    Calm true (fun _ : Nat × Nat => True) false (summaryLoop plat rs success failed) := by
  induction rs generalizing success failed with
  | nil => exact .ret trivial
  | cons r rest ih =>
    unfold summaryLoop
    split
    · exact Calm.bind (calm_log _ _) (fun _ _ => ih _ _)
    · exact Calm.bind (calm_log _ _) (fun _ _ => ih _ _)

theorem calm_showSummary (plat : Platform) :
    Calm true (fun _ : Unit => True) false (showSummary plat) := by
  unfold showSummary
  refine Calm.bind (calm_log _ _) (fun _ _ => ?_)
  refine Calm.bind (P := fun _ => True) (.getResults rfl (fun _ => .ret trivial)) (fun rs _ => ?_)
  refine Calm.bind (calm_summaryLoop _ _ _ _) (fun x _ => ?_)
  obtain ⟨success, failed⟩ := x
  refine Calm.bind (calm_log _ _) (fun _ _ => ?_)
  exact Calm.bind (calm_log _ _) (fun _ _ => calm_log _ _)

/-- One operation of a calm program: what is left is calm, and the results list
is as before. -/
theorem Calm.step {rd : Bool} {P : α → Prop} {held : Bool} {p q : Prog α} {s s1 : App W}
    (h : Calm rd P held p) (host : Host W) (hstep : p.step host s = some (.ok (q, s1))) :
    (∃ b, Calm rd P b q) ∧ s1.results = s.results := by
  cases h with
  | ret _ => simp [Prog.step] at hstep
  | halt => simp [Prog.step] at hstep
  | lock hk =>
    simp only [Prog.step] at hstep
    split at hstep
    · cases hstep
    · simp only [Option.some.injEq, Except.ok.injEq, Prod.mk.injEq] at hstep
      obtain ⟨rfl, rfl⟩ := hstep
      exact ⟨⟨_, hk⟩, rfl⟩
  | unlock hk =>
    simp only [Prog.step] at hstep
    split at hstep
    · simp only [Option.some.injEq, Except.ok.injEq, Prod.mk.injEq] at hstep
      obtain ⟨rfl, rfl⟩ := hstep
      exact ⟨⟨_, hk⟩, rfl⟩
    · cases hstep
  | enter hk | write hk | clear hk | print hk =>
    simp only [Prog.step, Option.some.injEq, Except.ok.injEq, Prod.mk.injEq] at hstep
    obtain ⟨rfl, rfl⟩ := hstep
    exact ⟨⟨_, hk⟩, rfl⟩
  | getResults _ hk | now hk | abs hk | stat hk | environ hk | cmdRun hk | combinedOutput hk =>
    simp only [Prog.step, Option.some.injEq, Except.ok.injEq, Prod.mk.injEq] at hstep
    obtain ⟨rfl, rfl⟩ := hstep
    exact ⟨⟨_, hk _⟩, rfl⟩

theorem Core.allDone {ps : List Project} {m : Par W} (hc : Core ps m [] 0) (hwg : m.wg = 0)
    (m1 : Par W) (happ : m1.app = m.app) (htasks : m1.tasks = m.tasks) : AllDone ps m1 := by
  have hcount : m.tasks.countP (fun t => !t.exited) = 0 := by
    have := hc.wg; omega
  rw [List.countP_eq_zero] at hcount
  have hdone : ∀ t ∈ m.tasks, ∃ r, t.prog = Prog.ret r ∧ r.Project = t.p.Name ∧ t.exited = true := by
    intro t ht
    have hex : t.exited = true := by simpa using hcount t ht
    have hok := hc.ok t ht
    cases hok with
    | building p q holds hcq => cases hex
    | reading p r hr => cases hex
    | writing p r hr => cases hex
    | releasing p r hr => cases hex
    | returned p r e hr => exact ⟨r, rfl, hr, hex⟩
  constructor
  · rw [htasks]; exact hdone
  · rw [happ]
    unfold Par.outcomes
    rw [htasks]
    have hcongr : m.tasks.filterMap (fun t => contribOf t.prog) =
        m.tasks.filterMap (fun t => outcomeOf t.prog) := by
      apply List.filterMap_congr
      intro t ht
      obtain ⟨r, hr, _⟩ := hdone t ht
      rw [hr]; rfl
    rw [← hcongr]
    exact hc.perm
  · rw [htasks, hc.projs]; simp

/-- Every step of a parallel build keeps the invariant. -/
theorem Inv.preserved {ps : List Project} {m m1 : Par W} (host : Host W) (plat : Platform) (who : Who)
    (hinv : Inv ps m) (hstep : Par.step host plat who m = some m1) : Inv ps m1 := by
  unfold Par.step at hstep
  split at hstep
  · cases hstep
  · cases who with
    | task i =>
      simp only at hstep
      unfold Inv at hinv ⊢
      rcases hmain : m.main with rest | ⟨p, rest⟩ | q
      · rw [hmain] at hinv
        obtain ⟨h1, h2⟩ := Core.stepTask host i hinv hstep
        rw [h2, hmain]; exact h1
      · rw [hmain] at hinv
        obtain ⟨h1, h2⟩ := Core.stepTask host i hinv hstep
        rw [h2, hmain]; exact h1
      · rw [hmain] at hinv
        exfalso
        unfold Par.stepTask at hstep
        rcases hget : m.tasks[i]? with _ | t
        · rw [hget] at hstep; cases hstep
        · rw [hget] at hstep
          obtain ⟨r, _, _, hex⟩ := hinv.1.done t (List.getElem?_mem hget)
          simp [hex] at hstep
    | main =>
      simp only at hstep
      unfold Par.stepMain at hstep
      unfold Inv at hinv ⊢
      rcases hmain : m.main with rest | ⟨p, rest⟩ | q
      · rw [hmain] at hinv hstep
        cases rest with
        | nil =>
          simp only at hstep
          split at hstep
          · rename_i hwg
            simp only [Option.some.injEq] at hstep
            subst hstep
            exact ⟨hinv.allDone hwg _ rfl rfl, ⟨false, calm_showSummary plat⟩⟩
          · cases hstep
        | cons p rest1 =>
          simp only [Option.some.injEq] at hstep
          subst hstep
          exact ⟨hinv.ok, hinv.holders, hinv.perm, by simp [hinv.wg], hinv.projs⟩
      · rw [hmain] at hinv hstep
        simp only [Option.some.injEq] at hstep
        subst hstep
        refine ⟨?_, ?_, ?_, ?_, ?_⟩
        · intro x hx
          rcases List.mem_append.1 hx with hx | hx
          · exact hinv.ok x hx
          · simp only [List.mem_singleton] at hx
            subst hx
            rw [buildTask_eq]
            exact .building p _ false (calm_buildProject false plat p)
        · simpa [List.countP_append] using hinv.holders
        · simpa [List.filterMap_append, buildTask_eq, contribOf_bind_publish] using hinv.perm
        · simp [List.countP_append, hinv.wg]
        · simp [hinv.projs]
      · rw [hmain] at hinv hstep
        obtain ⟨hdone, b, hq⟩ := hinv
        simp only at hstep
        rcases hs : q.step host m.app with _ | (h | ⟨q1, s1⟩)
        · rw [hs] at hstep; cases hstep
        · rw [hs] at hstep
          simp only [Option.some.injEq] at hstep
          subst hstep
          simp only [hmain]
          exact ⟨⟨hdone.done, hdone.perm, hdone.projs⟩, b, hq⟩
        · rw [hs] at hstep
          simp only [Option.some.injEq] at hstep
          subst hstep
          obtain ⟨hq1, hres⟩ := hq.step host hs
          refine ⟨⟨hdone.done, ?_, hdone.projs⟩, hq1⟩
          show List.Perm s1.results _
          rw [hres]; exact hdone.perm

theorem Inv.run {ps : List Project} {m m1 : Par W} (host : Host W) (plat : Platform)
    (sched : List Who) (hinv : Inv ps m) (hrun : Par.run host plat sched m = some m1) :
    Inv ps m1 := by
  induction sched generalizing m with
  | nil =>
    simp only [Par.run, Option.some.injEq] at hrun
    subst hrun; exact hinv
  | cons who rest ih =>
    simp only [Par.run] at hrun
    rcases hs : Par.step host plat who m with _ | m2
    · rw [hs] at hrun; cases hrun
    · rw [hs] at hrun
      exact ih (hinv.preserved host plat who hs) hrun

theorem returns_pure (host : Host W) (a : α) : Returns host (pure a : Prog α) :=
  fun s hs => ⟨a, s, rfl, hs⟩

theorem returns_bind {host : Host W} {p : Prog α} {f : α → Prog β} (hp : Returns host p)
    (hf : ∀ a, Returns host (f a)) : Returns host (p >>= f) := by
  intro s hs
  obtain ⟨a, s1, h1, hmu1⟩ := hp s hs
  obtain ⟨b, s2, h2, hmu2⟩ := hf a s1 hmu1
  exact ⟨b, s2, by rw [exec_bind_of_ok h1, h2], hmu2⟩

theorem returns_log (host : Host W) (t : GoString) : Returns host (log t) :=
  fun s hs => ⟨(), _, exec_log host t s hs, hs⟩

theorem returns_since (host : Host W) (start : Int) : Returns host (since start) :=
  fun s hs => ⟨_, _, exec_since host start s, hs⟩

theorem returns_now (host : Host W) : Returns host (Prog.now Prog.ret) :=
  fun _ hs => ⟨_, _, rfl, hs⟩

theorem returns_abs (host : Host W) (p : GoString) : Returns host (Prog.abs p Prog.ret) :=
  fun _ hs => ⟨_, _, rfl, hs⟩

theorem returns_stat (host : Host W) (p : GoString) : Returns host (Prog.stat p Prog.ret) :=
  fun _ hs => ⟨_, _, rfl, hs⟩

theorem returns_environ (host : Host W) : Returns host (Prog.environ Prog.ret) :=
  fun _ hs => ⟨_, _, rfl, hs⟩

theorem returns_cmdRun (host : Host W) (c : Cmd) : Returns host (Prog.cmdRun c Prog.ret) :=
  fun _ hs => ⟨_, _, rfl, hs⟩

theorem returns_combinedOutput (host : Host W) (c : Cmd) :
    Returns host (Prog.combinedOutput c Prog.ret) :=
  fun _ hs => ⟨_, _, rfl, hs⟩

theorem returns_enter (host : Host W) (n : GoString) :
    Returns host (Prog.enter n (Prog.ret ())) :=
  fun _ hs => ⟨_, _, rfl, hs⟩

theorem fieldsAux_ne_nil (skip : Nat) (s cur : GoString) (hcur : cur ≠ []) :
    fieldsAux skip s cur ≠ [] := by
  induction s generalizing skip cur with
  | nil => simp [fieldsAux, hcur]
  | cons b rest ih =>
    cases skip with
    | succ k => simp only [fieldsAux]; exact ih k cur hcur
    | zero =>
      simp only [fieldsAux]
      split
      · exact ih 0 (b :: cur) (by simp)
      · simp [hcur]

theorem fields_ne_nil_of_nonspace (b : UInt8) (rest : GoString) (hb : spaceWidth (b :: rest) = 0) :
    Fields (b :: rest) ≠ [] := by
  simp only [Fields, fieldsAux, hb]
  exact fieldsAux_ne_nil 0 rest [b] (by simp)

theorem fields_powershell (cmdStr : GoString)
    (h : (HasPrefix cmdStr (lit "powershell") || HasPrefix cmdStr (lit "pwsh")) = true) :
    Fields cmdStr ≠ [] := by
  have hp : ∃ t, cmdStr = (112 : UInt8) :: t := by
    rw [Bool.or_eq_true] at h
    rcases h with h | h
    · obtain ⟨t, ht⟩ := (hasPrefix_iff _ _).1 h
      exact ⟨(lit "owershell") ++ t, by rw [ht]; rfl⟩
    · obtain ⟨t, ht⟩ := (hasPrefix_iff _ _).1 h
      exact ⟨(lit "wsh") ++ t, by rw [ht]; rfl⟩
  obtain ⟨t, rfl⟩ := hp
  apply fields_ne_nil_of_nonspace
  simp [spaceWidth]

theorem returns_commandOfParts (host : Host W) (parts : List GoString) (h : parts ≠ []) :
    Returns host (commandOfParts parts) := by
  cases parts with
  | nil => exact absurd rfl h
  | cons a rest => exact fun s hs => ⟨_, s, rfl, hs⟩

/-- The command runner returns for every command line it can turn into a
command. -/
theorem returns_executeCommand (host : Host W) (plat : Platform) (cmdStr : GoString)
    (proj : Project) (hl : Launchable plat cmdStr) :
    Returns host (executeCommand plat cmdStr proj) := by
  unfold executeCommand
  refine returns_bind (returns_abs _ _) (fun absPath => ?_)
  have hrest : ∀ cmd : Cmd, Returns host
      (do
        let environ ← Prog.environ Prog.ret
        let cmd : Cmd := { cmd with Dir := absPath, Env := environ ++ envEntries proj.Env }
        let (outputStr, err) ← Prog.combinedOutput cmd Prog.ret
        let lines := Split newline outputStr
        let displayLines := 10
        if lines.length > displayLines then
          log (Join (lines.drop (lines.length - displayLines)) (lit "\n"))
        else
          log outputStr
        return (outputStr, err)) := by
    intro cmd
    refine returns_bind (returns_environ _) (fun environ => ?_)
    refine returns_bind (returns_combinedOutput _ _) (fun r => ?_)
    obtain ⟨outputStr, err⟩ := r
    dsimp only
    split
    · exact returns_bind (returns_log _ _) (fun _ => returns_pure _ _)
    · exact returns_bind (returns_log _ _) (fun _ => returns_pure _ _)
  dsimp only
  split
  · split
    · rename_i hps
      exact returns_bind (returns_commandOfParts _ _ (fields_powershell _ hps)) hrest
    · exact returns_bind (returns_pure _ _) hrest
  · rename_i hos
    rcases hl with hl | hl
    · exact absurd hl hos
    · exact returns_bind (returns_commandOfParts _ _ hl) hrest

theorem returns_createCommand (host : Host W) (name : GoString) (args : List GoString)
    (dir : GoString) (env : List (GoString × GoString)) :
    Returns host (createCommand name args dir env) :=
  returns_bind (returns_environ _) (fun _ => returns_pure _ _)

theorem returns_gitPull (host : Host W) (plat : Platform) (proj : Project) :
    Returns host (gitPull plat proj) := by
  unfold gitPull
  refine returns_bind (returns_abs _ _) (fun absPath => ?_)
  refine returns_bind (returns_stat _ _) (fun missing => ?_)
  have hpull : Returns host
      (do
        let cmd ← createCommand (lit "git") [lit "pull"] absPath proj.Env
        let (output, err) ← Prog.combinedOutput cmd Prog.ret
        match err with
        | some e => return some (lit "git pull 失败: " ++ e)
        | none =>
          log (lit "[blue]Git: " ++ TrimSpace output ++ lit "[-]")
          return none) := by
    refine returns_bind (returns_createCommand _ _ _ _ _) (fun cmd => ?_)
    refine returns_bind (returns_combinedOutput _ _) (fun r => ?_)
    obtain ⟨output, err⟩ := r
    cases err with
    | some e => exact returns_pure _ _
    | none => exact returns_bind (returns_log _ _) (fun _ => returns_pure _ _)
  have hafter : ∀ switched : Option GoString, Returns host
      (match switched with
       | some err => pure (some err)
       | none =>
         if proj.Git.Reset = true then do
           let cmd ← createCommand (lit "git") [lit "reset", lit "--hard", lit "HEAD"] absPath proj.Env
           let _ ← Prog.cmdRun cmd Prog.ret
           let cmd ← createCommand (lit "git") [lit "pull"] absPath proj.Env
           let (output, err) ← Prog.combinedOutput cmd Prog.ret
           match err with
           | some e => return some (lit "git pull 失败: " ++ e)
           | none =>
             log (lit "[blue]Git: " ++ TrimSpace output ++ lit "[-]")
             return none
         else do
           let cmd ← createCommand (lit "git") [lit "pull"] absPath proj.Env
           let (output, err) ← Prog.combinedOutput cmd Prog.ret
           match err with
           | some e => return some (lit "git pull 失败: " ++ e)
           | none =>
             log (lit "[blue]Git: " ++ TrimSpace output ++ lit "[-]")
             return none) := by
    intro switched
    cases switched with
    | some err => exact returns_pure _ _
    | none =>
      dsimp only
      split
      · refine returns_bind (returns_createCommand _ _ _ _ _) (fun cmd => ?_)
        exact returns_bind (returns_cmdRun _ _) (fun _ => hpull)
      · exact hpull
  split
  · exact returns_bind (returns_log _ _) (fun _ => returns_pure _ _)
  · dsimp only
    split
    · refine returns_bind (returns_createCommand _ _ _ _ _) (fun cmd => ?_)
      refine returns_bind (returns_cmdRun _ _) (fun e => ?_)
      cases e with
      | some err => exact hafter (some _)
      | none => exact returns_bind (returns_log _ _) (fun _ => hafter none)
    · exact hafter none

theorem returns_beginProject (host : Host W) (plat : Platform) (proj : Project) :
    Returns host (beginProject plat proj) := by
  unfold beginProject
  refine returns_bind (returns_now _) (fun start => ?_)
  refine returns_bind (returns_enter _ _) (fun _ => ?_)
  refine returns_bind (returns_log _ _) (fun _ => ?_)
  refine returns_bind ?_ (fun _ => returns_pure _ _)
  unfold refresh
  split
  · exact returns_gitPull _ _ _
  · exact returns_pure _ _

theorem returns_buildCommands (host : Host W) (plat : Platform) (proj : Project) (start : Int)
    (cmds : List GoString) (result : BuildResult) (hl : ∀ c ∈ cmds, Launchable plat c) :
    Returns host (buildCommands plat proj start cmds result) := by
  induction cmds generalizing result with
  | nil =>
    rw [buildCommands_nil]
    refine returns_bind (returns_since _ _) (fun d => ?_)
    exact returns_bind (returns_log _ _) (fun _ => returns_pure _ _)
  | cons cmd rest ih =>
    rw [buildCommands_cons]
    refine returns_bind (returns_log _ _) (fun _ => ?_)
    refine returns_bind (returns_executeCommand _ _ _ _ (hl cmd (List.mem_cons_self _ _)))
      (fun r => ?_)
    obtain ⟨output, err⟩ := r
    cases err with
    | some e =>
      refine returns_bind (returns_log _ _) (fun _ => ?_)
      exact returns_bind (returns_since _ _) (fun d => returns_pure _ _)
    | none => exact ih _ (fun c hc => hl c (List.mem_cons_of_mem _ hc))

/-- The project builder returns a result for every project all of whose command
lines can be turned into commands. -/
theorem returns_buildProject (host : Host W) (plat : Platform) (proj : Project)
    (hl : ∀ c ∈ proj.Build.Commands, Launchable plat c) :
    Returns host (buildProject plat proj) := by
  unfold buildProject
  refine returns_bind (returns_beginProject _ _ _) (fun x => ?_)
  obtain ⟨start, gitErr⟩ := x
  cases gitErr with
  | some err =>
    refine returns_bind (returns_log _ _) (fun _ => ?_)
    exact returns_bind (returns_since _ _) (fun d => returns_pure _ _)
  | none => exact returns_buildCommands _ _ _ _ _ _ hl

theorem returns_buildEach (host : Host W) (plat : Platform) (ps : List Project)
    (hl : ∀ p ∈ ps, ∀ c ∈ p.Build.Commands, Launchable plat c) :
    Returns host (buildEach plat ps) := by
  induction ps with
  | nil => exact returns_pure _ _
  | cons p rest ih =>
    rw [buildEach_cons]
    refine returns_bind (returns_buildProject _ _ _ (hl p (List.mem_cons_self _ _))) (fun r => ?_)
    exact returns_bind (ih (fun q hq => hl q (List.mem_cons_of_mem _ hq)))
      (fun rs => returns_pure _ _)

/-! ## The sequential scheduler without stop on error -/

/-- Claim C2.  Sequential mode without stop on error, from the state `a1` in
which `startBuild` starts the goroutine of `buildSequential` for the selected
projects `ps`, whatever the results list held before.  The selection is not
empty.  If every command line of the selected projects can be turned into a
command, the builds of the projects, one after the other, return outcomes.  And
whenever these builds return the outcomes `outs` (whether they succeed or fail),
the goroutine runs to its end and the results list is then exactly `outs`: one
outcome per selected project, in the order of the projects, each under its
project's name; nothing is built or launched besides. -/
theorem buildSequential_builds_all (host : Host W) (plat : Platform)
    (a a1 : App W) (ps : List Project)
    (hstart : (startBuild a.config a.list).exec host a = .ok (Launch.sequential ps, a1))
    (hstop : a.config.Global.StopOnError = false) :
    ps ≠ [] ∧
    ((∀ p ∈ ps, ∀ c ∈ p.Build.Commands, Launchable plat c) →
      ∃ outs a2, (buildEach plat ps).exec host a1 = .ok (outs, a2)) ∧
    (∀ (outs : List BuildResult) (a2 : App W),
      (buildEach plat ps).exec host a1 = .ok (outs, a2) →
      ∃ a3, (buildSequential plat a.config ps).exec host a1 = .ok ((), a3) ∧
        a3.results = outs ∧
        outs.length = ps.length ∧
        outs.map (fun x => x.Project) = ps.map (fun x => x.Name) ∧
        a3.history = a2.history ∧ a3.world = a2.world) := by
  obtain ⟨_, hne, _, hres1, hmu1⟩ := exec_startBuild_sequential hstart
  refine ⟨hne, ?_, ?_⟩
  · intro hl
    obtain ⟨outs, a2, h, _⟩ := returns_buildEach host plat ps hl a1 hmu1
    exact ⟨outs, a2, h⟩
  · intro outs a2 hall
    have hgo : ∀ x ∈ outs, (!x.Success && a.config.Global.StopOnError) = false := by
      intro x _; simp [hstop]
    have hpostE := (calm_buildEach false plat ps).exec_post host _ _ _ hall
    have hmu2 : a2.mu = false := hpostE.2.2 hmu1
    have hloop : (sequentialLoop plat a.config ps).exec host a1 =
        .ok ((), { a2 with results := outs }) := by
      have := exec_sequentialLoop_append host plat a.config ps [] a1 a2 outs hmu1 hall hgo
      rw [List.append_nil] at this
      rw [this, hres1]
      rfl
    obtain ⟨a3, hsum, hr3, hh3, hw3⟩ :=
      exec_showSummary_ok host plat { a2 with results := outs } hmu2
    refine ⟨a3, ?_, hr3, ?_, hpostE.1, hh3, hw3⟩
    · unfold buildSequential
      rw [exec_bind_of_ok hloop]
      exact hsum
    · have := congrArg List.length hpostE.1
      simpa using this

/-- Witness of `buildSequential_builds_all`: all three selected projects are
built although `svc-a` fails; a result of an earlier run is gone. -/
theorem buildSequential_builds_all_witness :
    ∃ a1, (startBuild exampleGoOnConfig (exampleAppOf exampleGoOnConfig).list).exec exampleHost
        (exampleAppOf exampleGoOnConfig) =
        .ok (Launch.sequential [exampleSvcB, exampleSvcA, exampleSvcC], a1) ∧
      [exampleSvcB, exampleSvcA, exampleSvcC] ≠ [] ∧
      (∃ outs a2, (buildEach exampleLinux [exampleSvcB, exampleSvcA, exampleSvcC]).exec
        exampleHost a1 = .ok (outs, a2)) ∧
      ∃ a3, (buildSequential exampleLinux exampleGoOnConfig
          [exampleSvcB, exampleSvcA, exampleSvcC]).exec exampleHost a1 = .ok ((), a3) ∧
        a3.results =
          [{ Project := lit "svc-b", Success := true, Output := lit "B1\n", Error := [], Duration := 2 },
           { Project := lit "svc-a", Success := false, Output := lit "A1\n",
             Error := lit "exit status 1", Duration := 3 },
           { Project := lit "svc-c", Success := true, Output := [], Error := [], Duration := 2 }] ∧
        a3.results.length = 3 ∧
        a3.results.map (fun x => x.Project) = [lit "svc-b", lit "svc-a", lit "svc-c"] := by
  refine ⟨_, rfl, ?_⟩
  have h := buildSequential_builds_all exampleHost exampleLinux (exampleAppOf exampleGoOnConfig)
    _ [exampleSvcB, exampleSvcA, exampleSvcC] rfl rfl
  refine ⟨h.1, h.2.1 (by decide), ?_⟩
  obtain ⟨a3, h1, h2, _, _, _, _⟩ := h.2.2 _ _ rfl
  exact ⟨a3, h1, h2, by rw [h2]; rfl, by rw [h2]; rfl⟩

/-! ## Steps and runs -/

/-- Running a program alone is taking its operations one after the other: a
program that has returned gives its value, one that waits for a held mutex is
stuck for good, an operation that ends the process ends the run, and after any
other operation the run is the run of the rest. -/
theorem exec_eq_step (host : Host W) (p : Prog α) (s : App W) :
    p.exec host s =
      match p.step host s with
      | none =>
        (match p with
         | .ret a => .ok (a, s)
         | _ => .error Halt.deadlock)
      | some (.error h) => .error h
      | some (.ok (q, s1)) => q.exec host s1 := by
  cases p with
  | lock k =>
    simp only [Prog.exec, Prog.step]
    split <;> rfl
  | unlock k =>
    simp only [Prog.exec, Prog.step]
    split <;> rfl
  | _ => rfl

/-! ## Toggling in a marked list -/

/-- The item of a marking at a position of the list. -/
theorem withMarks_getElem? (l : ListView) (marks : List Bool) (i : Nat)
    (hi : i < l.items.length) (hm : i < marks.length) :
    (withMarks l marks).items[i]? = some (setMark l.items[i] (marks[i])) := by
  simp only [withMarks]
  rw [List.getElem?_eq_getElem (by simp [hm, hi])]
  simp

theorem zipWith_set_right {γ δ ε : Type} (f : γ → δ → ε) (xs : List γ) (ys : List δ) (i : Nat)
    (y : δ) (hi : i < xs.length) :
    (List.zipWith f xs ys).set i (f xs[i] y) = List.zipWith f xs (ys.set i y) := by
  induction xs generalizing ys i with
  | nil => simp at hi
  | cons x rest ih =>
    cases ys with
    | nil => simp
    | cons y0 ys1 =>
      cases i with
      | zero => simp
      | succ n =>
        simp only [List.zipWith_cons_cons, List.set_cons_succ, List.getElem_cons_succ]
        rw [ih ys1 n (by simpa using hi)]

/-- Toggling an item of a marking of a list whose items are unmarked gives the
marking with the mark of that item flipped. -/
theorem toggleSelection_withMarks (l : ListView) (marks : List Bool) (i : Nat)
    (hun : ∀ it ∈ l.items, HasPrefix it.MainText (lit "[ ]") = true)
    (hi : i < l.items.length) (hm : i < marks.length) :
    toggleSelection { withMarks l marks with currentItem := i } =
      .ok { withMarks l (marks.set i (!(marks[i]))) with currentItem := i } := by
  have hget := withMarks_getElem? l marks i hi hm
  obtain ⟨t, ht⟩ := (hasPrefix_iff _ _).1 (hun _ (List.getElem_mem hi))
  have hneg : ¬ ((i : Int) < 0) := by omega
  have htoggle : toggleText (setMark l.items[i] (marks[i])).MainText =
      .ok (setMark l.items[i] (!(marks[i]))).MainText := by
    cases hmi : marks[i] with
    | true =>
      simp only [setMark, if_true, Bool.not_true, Bool.false_eq_true, if_false]
      rw [toggleText_checked, ht, lit_unchecked]; rfl
    | false =>
      simp only [setMark, Bool.false_eq_true, if_false, Bool.not_false, if_true]
      rw [ht, toggleText_unchecked, lit_unchecked]; rfl
  have hitem : ({ setMark l.items[i] (marks[i]) with
      MainText := (setMark l.items[i] (!(marks[i]))).MainText } : Item) =
      setMark l.items[i] (!(marks[i])) := by
    cases hmi : marks[i] <;> simp [setMark]
  simp only [toggleSelection, hneg, if_false, Int.toNat_ofNat, hget, htoggle, bind, Except.bind,
    pure, Except.pure, hitem]
  simp only [withMarks]
  rw [zipWith_set_right setMark l.items marks i _ hi]

/-! ## The log of the command runner -/

theorem split_ne_nil (s : GoString) : Split newline s ≠ [] := by
  cases s with
  | nil => simp [Split]
  | cons b rest =>
    simp only [Split]
    split
    · simp
    · split <;> simp

theorem split_length (s : GoString) : (Split newline s).length = s.count newline + 1 := by
  induction s with
  | nil => rfl
  | cons b rest ih =>
    simp only [Split]
    by_cases hb : b = newline
    · simp [hb, ih]
    · have hne : (b == newline) = false := by simpa using hb
      rw [if_neg hb, List.count_cons, hne]
      rcases hsp : Split newline rest with _ | ⟨l, ls⟩
      · exact absurd hsp (split_ne_nil rest)
      · rw [hsp] at ih
        simpa using ih

theorem join_cons_cons (x y : GoString) (ys : List GoString) (sep : GoString) :
    Join (x :: y :: ys) sep = x ++ sep ++ Join (y :: ys) sep := by
  simp [Join, List.intercalate, List.intersperse]

theorem join_singleton (x sep : GoString) : Join [x] sep = x := by
  simp [Join, List.intercalate, List.intersperse]

theorem join_cons_byte (b : UInt8) (l : GoString) (ls : List GoString) (sep : GoString) :
    Join ((b :: l) :: ls) sep = b :: Join (l :: ls) sep := by
  cases ls with
  | nil => simp [join_singleton]
  | cons y ys => simp [join_cons_cons]

/-- Joining the pieces of `s` from piece `k` on gives `s` without its first `k`
lines. -/
theorem join_drop_split (s : GoString) (k : Nat) (hk : k < (Split newline s).length) :
    Join ((Split newline s).drop k) (lit "\n") = dropLines k s := by
  induction s generalizing k with
  | nil =>
    simp only [Split, List.length_singleton, Nat.lt_one_iff] at hk
    subst hk
    rfl
  | cons b rest ih =>
    rcases hsp : Split newline rest with _ | ⟨l, ls⟩
    · exact absurd hsp (split_ne_nil rest)
    · by_cases hb : b = newline
      · subst hb
        simp only [Split, if_true] at hk ⊢
        cases k with
        | zero =>
          have h0 := ih 0 (by rw [hsp]; simp)
          rw [hsp] at h0 ⊢
          simp only [List.drop_zero, dropLines] at h0 ⊢
          rw [join_cons_cons, h0]
          rfl
        | succ n =>
          simp only [List.drop_succ_cons, dropLines, if_true]
          exact ih n (by simpa using hk)
      · simp only [Split, if_neg hb, hsp] at hk ⊢
        cases k with
        | zero =>
          have h0 := ih 0 (by rw [hsp]; simp)
          rw [hsp] at h0
          simp only [List.drop_zero, dropLines] at h0 ⊢
          rw [join_cons_byte, h0]
        | succ n =>
          have h1 := ih (n + 1) (by rw [hsp]; simpa using hk)
          rw [hsp] at h1
          simp only [List.drop_succ_cons, dropLines, if_neg hb] at h1 ⊢
          exact h1

theorem dropLines_zero (s : GoString) : dropLines 0 s = s := by
  cases s <;> rfl

theorem exec_environ_ret (host : Host W) (s : App W) :
    (Prog.environ Prog.ret).exec host s = .ok (host.environ s.world, s) := rfl

theorem exec_abs_ret (host : Host W) (p : GoString) (s : App W) :
    (Prog.abs p Prog.ret).exec host s = .ok (host.abs p s.world, s) := rfl

theorem exec_combinedOutput_ret (host : Host W) (c : Cmd) (s : App W) :
    (Prog.combinedOutput c Prog.ret).exec host s =
      .ok ((host.combinedOutput c s.world).1,
        { s with world := (host.combinedOutput c s.world).2,
                 history := s.history ++ [Event.launch c] }) := rfl

/-- What the command runner logs, in general: the output without as many leading
lines as it takes to leave at most nine newline bytes; and it returns what
`CombinedOutput` gave, output and error, as it is. -/
theorem exec_executeCommand (host : Host W) (plat : Platform) (cmdStr : GoString)
    (proj : Project) (s : App W) (hmu : s.mu = false) (hl : Launchable plat cmdStr) :
    ∃ cmd : Cmd,
      (executeCommand plat cmdStr proj).exec host s =
        .ok ((host.combinedOutput cmd s.world).1,
          { s with
            world := (host.combinedOutput cmd s.world).2
            history := s.history ++ [Event.launch cmd]
            textView := s.textView ++
              [dropLines ((host.combinedOutput cmd s.world).1.1.count newline - 9)
                (host.combinedOutput cmd s.world).1.1 ++ lit "\n"] }) := by
  have hrest : ∀ (absPath : GoString) (cmd0 : Cmd), ∃ cmd : Cmd,
      (do
        let environ ← Prog.environ Prog.ret
        let cmd : Cmd := { cmd0 with Dir := absPath, Env := environ ++ envEntries proj.Env }
        let (outputStr, err) ← Prog.combinedOutput cmd Prog.ret
        let lines := Split newline outputStr
        let displayLines := 10
        if lines.length > displayLines then
          log (Join (lines.drop (lines.length - displayLines)) (lit "\n"))
        else
          log outputStr
        return (outputStr, err) : Prog (GoString × Option GoString)).exec host s =
        .ok ((host.combinedOutput cmd s.world).1,
          { s with
            world := (host.combinedOutput cmd s.world).2
            history := s.history ++ [Event.launch cmd]
            textView := s.textView ++
              [dropLines ((host.combinedOutput cmd s.world).1.1.count newline - 9)
                (host.combinedOutput cmd s.world).1.1 ++ lit "\n"] }) := by
    intro absPath cmd0
    refine ⟨{ cmd0 with Dir := absPath, Env := host.environ s.world ++ envEntries proj.Env }, ?_⟩
    simp only [exec_bind, exec_environ_ret, exec_combinedOutput_ret]
    generalize ({ cmd0 with Dir := absPath, Env := host.environ s.world ++ envEntries proj.Env }
      : Cmd) = cmd
    rcases host.combinedOutput cmd s.world with ⟨⟨out, err⟩, w1⟩
    simp only []
    by_cases hlen : (Split newline out).length > 10
    · rw [if_pos hlen, exec_bind, exec_log host _ _ (by simpa using hmu)]
      have hk : (Split newline out).length - 10 = out.count newline - 9 := by
        rw [split_length]; omega
      rw [hk, join_drop_split out _ (by rw [split_length]; omega)]
      rfl
    · rw [if_neg hlen, exec_bind, exec_log host _ _ (by simpa using hmu)]
      have hk : out.count newline - 9 = 0 := by
        rw [split_length] at hlen; omega
      rw [hk, dropLines_zero]
      rfl
  have hparts : ∀ parts : List GoString, parts ≠ [] → ∃ cmd0, commandOfParts parts = pure cmd0 := by
    intro parts hp
    cases parts with
    | nil => exact absurd rfl hp
    | cons a rest => exact ⟨_, rfl⟩
  unfold executeCommand
  simp only [exec_bind, exec_abs_ret]
  split
  · split
    · rename_i hps
      obtain ⟨cmd0, h0⟩ := hparts _ (fields_powershell _ hps)
      rw [h0]
      exact hrest _ cmd0
    · exact hrest _ _
  · rename_i hos
    rcases hl with hl | hl
    · exact absurd hl hos
    · obtain ⟨cmd0, h0⟩ := hparts _ hl
      rw [h0]
      exact hrest _ cmd0

/-! ## Batch mode -/

theorem exec_print (host : Host W) (t : GoString) (s : App W) :
    (Prog.print t (Prog.ret ())).exec host s = .ok ((), { s with stdout := s.stdout ++ [t] }) := rfl

theorem launchedArgs_append (h1 h2 : List Event) :
    launchedArgs (h1 ++ h2) = launchedArgs h1 ++ launchedArgs h2 := by
  simp [launchedArgs, List.filterMap_append]

theorem batchCommands_cons (plat : Platform) (config : Config) (proj : Project)
    (cmdStr : GoString) (rest : List GoString) :
    batchCommands plat config proj (cmdStr :: rest) = (do
      Prog.print (lit "$ " ++ cmdStr ++ lit "\n") (Prog.ret ())
      let cmd ←
        if plat.GOOS = lit "windows" then
          pure (Command (lit "cmd") [lit "/C", cmdStr])
        else
          commandOfParts (Fields cmdStr)
      let absPath ← Prog.abs proj.Path Prog.ret
      let environ ← Prog.environ Prog.ret
      let cmd := { cmd with Dir := absPath, Env := environ ++ envEntries proj.Env }
      let (output, err) ← Prog.combinedOutput cmd Prog.ret
      Prog.print output (Prog.ret ())
      match err with
      | some e =>
        Prog.print (lit "✗ 失败: " ++ e ++ lit "\n") (Prog.ret ())
        if config.Global.StopOnError then
          Prog.halt (Halt.exit 1)
        else
          batchCommands plat config proj rest
      | none =>
        Prog.print (lit "✓ 成功" ++ lit "\n") (Prog.ret ())
        batchCommands plat config proj rest) := rfl

/-- Batch mode without stop on error launches every command of a project, one
after the other, whatever the commands return. -/
theorem exec_batchCommands (host : Host W) (plat : Platform) (config : Config) (proj : Project)
    (cmds : List GoString) (s : App W)
    (hstop : config.Global.StopOnError = false)
    (hl : ∀ c ∈ cmds, Launchable plat c) :
    ∃ s1, (batchCommands plat config proj cmds).exec host s = .ok ((), s1) ∧
      launchedArgs s1.history = launchedArgs s.history ++ cmds.map (batchArgs plat) := by
  induction cmds generalizing s with
  | nil => exact ⟨s, rfl, by simp⟩
  | cons c rest ih =>
    have htail : ∀ (cmd0 : Cmd) (s0 : App W), cmd0.Args = batchArgs plat c →
        ∃ s1, (do
          let absPath ← Prog.abs proj.Path Prog.ret
          let environ ← Prog.environ Prog.ret
          let cmd : Cmd := { cmd0 with Dir := absPath, Env := environ ++ envEntries proj.Env }
          let (output, err) ← Prog.combinedOutput cmd Prog.ret
          Prog.print output (Prog.ret ())
          match err with
          | some e =>
            Prog.print (lit "✗ 失败: " ++ e ++ lit "\n") (Prog.ret ())
            if config.Global.StopOnError then
              Prog.halt (Halt.exit 1)
            else
              batchCommands plat config proj rest
          | none =>
            Prog.print (lit "✓ 成功" ++ lit "\n") (Prog.ret ())
            batchCommands plat config proj rest : Prog Unit).exec host s0 = .ok ((), s1) ∧
          launchedArgs s1.history =
            launchedArgs s0.history ++ batchArgs plat c :: rest.map (batchArgs plat) := by
      intro cmd0 s0 hargs
      simp only [exec_bind, exec_abs_ret, exec_environ_ret, exec_combinedOutput_ret]
      generalize hcmd1 : ({ cmd0 with Dir := host.abs proj.Path s0.world, Env := host.environ s0.world ++ envEntries proj.Env } : Cmd) = cmd1
      have hargs1 : cmd1.Args = batchArgs plat c := by rw [← hcmd1]; exact hargs
      rcases host.combinedOutput cmd1 s0.world with ⟨⟨out, err⟩, w1⟩
      cases err with
      | some e =>
        simp only [exec_bind, exec_print, hstop, Bool.false_eq_true, if_false]
        obtain ⟨s1, h1, h2⟩ := ih
          { s0 with stdout := s0.stdout ++ [out] ++ [lit "✗ 失败: " ++ e ++ lit "\n"],
                    world := w1, history := s0.history ++ [Event.launch cmd1] }
          (fun x hx => hl x (List.mem_cons_of_mem _ hx))
        refine ⟨s1, ?_, ?_⟩
        · rw [← h1]
        · rw [h2, launchedArgs_append]
          simp [launchedArgs, hargs1]
      | none =>
        simp only [exec_bind, exec_print]
        obtain ⟨s1, h1, h2⟩ := ih
          { s0 with stdout := s0.stdout ++ [out] ++ [lit "✓ 成功" ++ lit "\n"],
                    world := w1, history := s0.history ++ [Event.launch cmd1] }
          (fun x hx => hl x (List.mem_cons_of_mem _ hx))
        refine ⟨s1, ?_, ?_⟩
        · rw [← h1]
        · rw [h2, launchedArgs_append]
          simp [launchedArgs, hargs1]
    rw [batchCommands_cons, exec_bind, exec_print]
    dsimp only
    by_cases hos : plat.GOOS = lit "windows"
    · rw [if_pos hos, exec_bind, exec_pure]
      exact htail _ _ (by simp [batchArgs, hos, Command])
    · rw [if_neg hos]
      rcases hl c (List.mem_cons_self _ _) with h | h
      · exact absurd h hos
      · rcases hf : Fields c with _ | ⟨a, args⟩
        · exact absurd hf h
        · rw [exec_bind]
          exact htail (Command a args) _ (by simp [batchArgs, hos, Command, hf])

/-- Batch mode without stop on error launches every command of every project
that is not disabled, in the order of the configuration, whatever the commands
return. -/
theorem exec_batchProjects (host : Host W) (plat : Platform) (config : Config)
    (ps : List Project) (s : App W)
    (hstop : config.Global.StopOnError = false)
    (hl : ∀ p ∈ ps, ∀ c ∈ p.Build.Commands, Launchable plat c) :
    ∃ s1, (batchProjects plat config ps).exec host s = .ok ((), s1) ∧
      launchedArgs s1.history = launchedArgs s.history ++
        (ps.filter (fun p => !p.Disabled)).flatMap
          (fun p => p.Build.Commands.map (batchArgs plat)) := by
  induction ps generalizing s with
  | nil => exact ⟨s, rfl, by simp⟩
  | cons p rest ih =>
    unfold batchProjects
    by_cases hd : p.Disabled = true
    · simp only [hd, if_true]
      obtain ⟨s1, h1, h2⟩ := ih s (fun q hq => hl q (List.mem_cons_of_mem _ hq))
      exact ⟨s1, h1, by simpa [hd] using h2⟩
    · have hd2 : p.Disabled = false := by simpa using hd
      simp only [hd2, Bool.false_eq_true, if_false, exec_bind, exec_print]
      obtain ⟨s1, h1, h2⟩ := exec_batchCommands host plat config p p.Build.Commands
        { s with stdout := s.stdout ++ [lit "\n>>> 构建: " ++ p.Name ++ lit "\n"] } hstop
        (hl p (List.mem_cons_self _ _))
      rw [h1]
      simp only []
      obtain ⟨s2, h3, h4⟩ := ih s1 (fun q hq => hl q (List.mem_cons_of_mem _ hq))
      refine ⟨s2, h3, ?_⟩
      rw [h4, h2]
      simp [hd2, List.flatMap_cons, List.append_assoc]

/-- Batch mode without stop on error, as a whole: `runNonInteractive` returns,
and the processes it launched are the commands of all projects that are not
disabled, every one of them, in order, also those after a command that failed. -/
theorem exec_runNonInteractive (host : Host W) (plat : Platform) (config : Config) (s : App W)
    (hstop : config.Global.StopOnError = false)
    (hl : ∀ p ∈ config.Projects, ∀ c ∈ p.Build.Commands, Launchable plat c) :
    ∃ s1, (runNonInteractive plat (.ok config)).exec host s = .ok ((), s1) ∧
      launchedArgs s1.history = launchedArgs s.history ++
        (enabledProjects config).flatMap (fun p => p.Build.Commands.map (batchArgs plat)) := by
  unfold runNonInteractive
  simp only [exec_bind, exec_print]
  obtain ⟨s1, h1, h2⟩ := exec_batchProjects host plat config config.Projects
    { s with stdout := s.stdout ++ [lit "=== Yeah-Build 非交互模式 ===\n"]
               ++ [lit "平台: " ++ plat.GOOS ++ lit "/" ++ plat.GOARCH ++ lit "\n\n"] } hstop hl
  rw [h1]
  exact ⟨_, rfl, h2⟩

end YeahBuild
